import Mathlib

/-!
# Verification of the RechtsInfo retrieval-and-citation pipeline

Shallow embedding of the core of the repository:

* `src/src/guards/citationGuard.js` — the citation guard (`NORM_REGEX`,
  `normalizeNorm`, `resolveToAllowedNorm`, `sanitizeAnswerCitations`).
  JS strings are modelled as `List Char` (all characters involved are
  single UTF-16 code units, so code-unit indexing and code-point indexing
  agree).  The JS regex engine's leftmost-match backtracking semantics are
  modelled by parsers that return the candidate continuation states in
  exactly the engine's preference order (ordered alternation, greedy
  quantifiers longest-first), with the final word-boundary assertion
  filtering candidates.
* `scripts/ingest-laws.js` — the chunker's `splitText` and the version
  store transitions performed by `main` / `markVersionFailed`.
* the server's `retrieveLegalSources` (effective-version SQL) — the
  query-time version resolution.
-/

/-! ## Character classes (JS regex semantics) -/

/-- JS `\s`: the WhiteSpace and LineTerminator productions used by the
regex engine and by `String.prototype.trim`. -/
def jsWs (c : Char) : Bool :=
  let n := c.toNat
  n = 0x20 || n = 0x9 || n = 0xA || n = 0xB || n = 0xC || n = 0xD ||
  n = 0xA0 || n = 0x1680 || (0x2000 ≤ n && n ≤ 0x200A) ||
  n = 0x2028 || n = 0x2029 || n = 0x202F || n = 0x205F || n = 0x3000 || n = 0xFEFF

/-- JS `\d` = `[0-9]`. -/
def isDigitCh (c : Char) : Bool :=
  0x30 ≤ c.toNat && c.toNat ≤ 0x39

/-- `[a-zA-Z]`. -/
def isAsciiAlpha (c : Char) : Bool :=
  (0x41 ≤ c.toNat && c.toNat ≤ 0x5A) || (0x61 ≤ c.toNat && c.toNat ≤ 0x7A)

/-- `[a-z]`. -/
def isLowerAlpha (c : Char) : Bool :=
  0x61 ≤ c.toNat && c.toNat ≤ 0x7A

/-- `[A-Za-zÄÖÜäöü]` — the law-code token class of `NORM_REGEX`. -/
def isLawChar (c : Char) : Bool :=
  isAsciiAlpha c || c = 'Ä' || c = 'Ö' || c = 'Ü' || c = 'ä' || c = 'ö' || c = 'ü'

/-- `[IVX]`. -/
def isRomanCh (c : Char) : Bool :=
  c = 'I' || c = 'V' || c = 'X'

/-- JS `\w` (word character, used by the `\b` assertion). -/
def isWordCh (c : Char) : Bool :=
  isAsciiAlpha c || isDigitCh c || c = '_'

/-! ## Backtracking regex model

A parser state is `(previous character, remaining input)`; the previous
character is tracked because the trailing `\b` assertion of `NORM_REGEX`
inspects it.  A parser maps a state to the list of possible successor
states in the engine's backtracking preference order. -/

/-- Parser state: last consumed character (if any) and remaining input. -/
abbrev PSt := Option Char × List Char

/-- Single character from a class. -/
def pcls (f : Char → Bool) : PSt → List PSt
  | (_, []) => []
  | (_, x :: xs) => if f x then [(some x, xs)] else []

/-- Literal string. -/
def pstr : List Char → PSt → List PSt
  | [], st => [st]
  | c :: cs, st => (pcls (fun x => x = c) st).flatMap (pstr cs)

/-- Sequencing (backtracking order preserved by `flatMap`). -/
def pseq (p q : PSt → List PSt) : PSt → List PSt :=
  fun st => (p st).flatMap q

/-- Ordered alternation (left alternative first). -/
def palt (p q : PSt → List PSt) : PSt → List PSt :=
  fun st => p st ++ q st

/-- Greedy `?`: with the group first, then without. -/
def popt (p : PSt → List PSt) : PSt → List PSt :=
  fun st => p st ++ [st]

/-- Greedy `*` over a character class: longest consumption first. -/
def pstarGo (f : Char → Bool) : Option Char → List Char → List PSt
  | pv, [] => [(pv, [])]
  | pv, x :: xs =>
    if f x then pstarGo f (some x) xs ++ [(pv, x :: xs)] else [(pv, x :: xs)]

/-- Greedy `*` over a character class: longest consumption first. -/
def pstar (f : Char → Bool) (st : PSt) : List PSt :=
  pstarGo f st.1 st.2

/-- Greedy `+` over a character class. -/
def pplus (f : Char → Bool) : PSt → List PSt :=
  pseq (pcls f) (pstar f)

/-- Greedy bounded repetition `{lo, lo+hi}` over a character class
(`hi` is the number of optional repetitions on top of the `lo`
mandatory ones is not how this is parameterised: `prange f lo hi`
accepts between `lo` and `hi` characters, longest first). -/
def prange (f : Char → Bool) : Nat → Nat → PSt → List PSt
  | lo, 0, st => if lo = 0 then [st] else []
  | lo, hi + 1, st =>
    match st with
    | (_, []) => if lo = 0 then [st] else []
    | (pv, x :: xs) =>
      (if f x then prange f (lo - 1) hi (some x, xs) else []) ++
        (if lo = 0 then [(pv, x :: xs)] else [])

/-- Greedy `{2,}` over a character class. -/
def patLeast2 (f : Char → Bool) : PSt → List PSt :=
  pseq (pcls f) (pseq (pcls f) (pstar f))

/-! ## NORM_REGEX (citationGuard.js lines 3–4)

```
/(?:§\s*\d+[a-zA-Z]*|Art\.\s*\d+[a-zA-Z]*)\s*(?:(?:Abs\.|Absatz)\s*\d+[a-zA-Z]*\s*)?
 (?:(?:Satz)\s*\d+\s*)?(?:(?:Nr\.|Nummer)\s*\d+\s*)?(?:(?:lit\.?)\s*[a-z]\s*)?
 (?:(?:Buchst\.|Buchstabe)\s*[a-z]\s*)?
 (?:[A-Za-zÄÖÜäöü]{2,}(?:\s*(?:[IVX]{1,4}|[0-9]{1,3}))?)?\b/g
```
-/

/-- `(?:§\s*\d+[a-zA-Z]*|Art\.\s*\d+[a-zA-Z]*)`. -/
def normHeadAlt : PSt → List PSt :=
  palt
    (pseq (pstr ['§']) (pseq (pstar jsWs) (pseq (pplus isDigitCh) (pstar isAsciiAlpha))))
    (pseq (pstr "Art.".toList) (pseq (pstar jsWs) (pseq (pplus isDigitCh) (pstar isAsciiAlpha))))

/-- `(?:(?:Abs\.|Absatz)\s*\d+[a-zA-Z]*\s*)?`. -/
def normAbsGrp : PSt → List PSt :=
  popt (pseq (palt (pstr "Abs.".toList) (pstr "Absatz".toList))
    (pseq (pstar jsWs) (pseq (pplus isDigitCh) (pseq (pstar isAsciiAlpha) (pstar jsWs)))))

/-- `(?:(?:Satz)\s*\d+\s*)?`. -/
def normSatzGrp : PSt → List PSt :=
  popt (pseq (pstr "Satz".toList) (pseq (pstar jsWs) (pseq (pplus isDigitCh) (pstar jsWs))))

/-- `(?:(?:Nr\.|Nummer)\s*\d+\s*)?`. -/
def normNrGrp : PSt → List PSt :=
  popt (pseq (palt (pstr "Nr.".toList) (pstr "Nummer".toList))
    (pseq (pstar jsWs) (pseq (pplus isDigitCh) (pstar jsWs))))

/-- `(?:(?:lit\.?)\s*[a-z]\s*)?`. -/
def normLitGrp : PSt → List PSt :=
  popt (pseq (pseq (pstr "lit".toList) (popt (pcls (fun c => c = '.'))))
    (pseq (pstar jsWs) (pseq (pcls isLowerAlpha) (pstar jsWs))))

/-- `(?:(?:Buchst\.|Buchstabe)\s*[a-z]\s*)?`. -/
def normBuchstGrp : PSt → List PSt :=
  popt (pseq (palt (pstr "Buchst.".toList) (pstr "Buchstabe".toList))
    (pseq (pstar jsWs) (pseq (pcls isLowerAlpha) (pstar jsWs))))

/-- `(?:[A-Za-zÄÖÜäöü]{2,}(?:\s*(?:[IVX]{1,4}|[0-9]{1,3}))?)?`. -/
def normLawGrp : PSt → List PSt :=
  popt (pseq (patLeast2 isLawChar)
    (popt (pseq (pstar jsWs)
      (palt (pseq (pcls isRomanCh) (prange isRomanCh 0 3))
            (pseq (pcls isDigitCh) (prange isDigitCh 0 2))))))

/-- All candidate end states of `NORM_REGEX` (before the final `\b`),
in backtracking preference order. -/
def normRegexCands : PSt → List PSt :=
  pseq normHeadAlt (pseq (pstar jsWs) (pseq normAbsGrp (pseq normSatzGrp
    (pseq normNrGrp (pseq normLitGrp (pseq normBuchstGrp normLawGrp))))))

/-- Word-ness of an optional character (out of range = non-word). -/
def isWordO : Option Char → Bool
  | none => false
  | some c => isWordCh c

/-- The `\b` assertion at a state. -/
def atBoundary (st : PSt) : Bool :=
  isWordO st.1 != isWordO st.2.head?

/-- Length of the `NORM_REGEX` match starting exactly at the given state,
if any: the first candidate (in backtracking order) surviving `\b`. -/
def matchLenAt (pv : Option Char) (s : List Char) : Option Nat :=
  match (normRegexCands (pv, s)).filter atBoundary with
  | [] => none
  | (_, rest) :: _ => some (s.length - rest.length)

/-- `text.match(NORM_REGEX)` with the `g` flag: scan left to right,
non-overlapping; on an (impossible for this regex) empty match the scan
records it and advances one character, as the JS engine does. -/
def matchAllGo : Nat → Option Char → List Char → List (List Char)
  | 0, _, _ => []
  | _ + 1, _, [] => []
  | fuel + 1, pv, x :: xs =>
    match matchLenAt pv (x :: xs) with
    | none => matchAllGo fuel (some x) xs
    | some 0 => [] :: matchAllGo fuel (some x) xs
    | some (k + 1) =>
      let m := (x :: xs).take (k + 1)
      m :: matchAllGo fuel m.getLast? ((x :: xs).drop (k + 1))

/-- `String(text).match(NORM_REGEX) || []` as a list of matched substrings. -/
def jsMatchAll (s : List Char) : List (List Char) :=
  matchAllGo (s.length + 1) none s

/-! ## normalizeNorm (citationGuard.js lines 6–17) -/

/-- Fuelled core of `collapseWs`; the fuel strictly exceeds the number of
steps whenever it is at least the input length, so `collapseWs` below
never hits the `0` case (proved by `collapseWsF_fuel_irrel`). -/
def collapseWsF : Nat → List Char → List Char
  | 0, s => s
  | _ + 1, [] => []
  | fuel + 1, x :: xs =>
    if jsWs x then ' ' :: collapseWsF fuel (xs.dropWhile jsWs)
    else x :: collapseWsF fuel xs

/-- `.replace(/\s+/g, " ")`: collapse every whitespace run to one space
(the defining equations are `collapseWs_nil` / `collapseWs_cons`). -/
def collapseWs (s : List Char) : List Char :=
  collapseWsF s.length s

/-- `.replace(/T\s*/g, "T ")` for a literal token `T = c :: cs`
(none of the tokens used contains whitespace): every occurrence of the
token, together with the whitespace run following it, is rewritten to
the token followed by a single space.  The scan is leftmost and
non-overlapping, continuing after each match, exactly as the JS global
replace does. -/
def replTokF (c : Char) (cs : List Char) : Nat → List Char → List Char
  | 0, s => s
  | _ + 1, [] => []
  | fuel + 1, x :: xs =>
    if (c :: cs).isPrefixOf (x :: xs) then
      (c :: cs) ++ ' ' :: replTokF c cs fuel ((xs.drop cs.length).dropWhile jsWs)
    else x :: replTokF c cs fuel xs

/-- `.replace(/T\s*/g, "T ")` for the token `T = c :: cs` (the defining
equations are `replTok_nil` / `replTok_cons`; the fuel of `replTokF`
never runs out, by `replTokF_fuel_irrel`). -/
def replTok (c : Char) (cs : List Char) (s : List Char) : List Char :=
  replTokF c cs s.length s

/-- `String.prototype.trim`. -/
def jsTrim (s : List Char) : List Char :=
  ((s.dropWhile jsWs).reverse.dropWhile jsWs).reverse

/-- `normalizeNorm` (citationGuard.js lines 6–17): sequential global
replaces `\s+→" "`, `§\s*→"§ "`, `Art\.\s*→"Art. "`, `Abs\.\s*→"Abs. "`,
`Nr\.\s*→"Nr. "`, `Satz\s*→"Satz "`, `lit\.\s*→"lit. "`,
`Buchst\.\s*→"Buchst. "`, then `.trim()`.  The single fuel value
`128 * (s.length + 1)` dominates every intermediate length (each global
replace at most doubles the length), so each stage computes its full
result; `normalizeNorm_eq` restates this definition in terms of the
per-stage functions `collapseWs` / `replTok`. -/
def normalizeNorm (s : List Char) : List Char :=
  let f := 128 * (s.length + 1)
  jsTrim (replTokF 'B' "uchst.".toList f (replTokF 'l' "it.".toList f
    (replTokF 'S' "atz".toList f (replTokF 'N' "r.".toList f
      (replTokF 'A' "bs.".toList f (replTokF 'A' "rt.".toList f
        (replTokF '§' [] f (collapseWsF f s))))))))

/-! ## resolveToAllowedNorm (citationGuard.js lines 92–115)

The JS `Set` of allowed norms is modelled as a `List (List Char)` in the
set's insertion/iteration order; `Set.has` is membership and spreading
`[...allowedNorms]` is the list itself. -/

/-- `n.split(" ")` (split on every single space; JS yields `[""]` for the
empty string and empty fragments around consecutive separators). -/
def splitSpGo (cur : List Char) : List Char → List (List Char)
  | [] => [cur.reverse]
  | x :: xs =>
    if x = ' ' then cur.reverse :: splitSpGo [] xs else splitSpGo (x :: cur) xs

/-- `n.split(" ")`. -/
def splitSp (s : List Char) : List (List Char) :=
  splitSpGo [] s

/-- `parts[0] + (parts[1] ? ` ${parts[1]}` : "")` — the leading token
pair; an empty `parts[1]` is falsy in JS, hence dropped. -/
def headPairOf (parts : List (List Char)) : List Char :=
  match parts with
  | [] => []
  | p0 :: rest =>
    match rest with
    | [] => p0
    | p1 :: _ => if p1 = [] then p0 else p0 ++ ' ' :: p1

/-- `parts[parts.length - 1]` — the trailing law-code token. -/
def tailTokOf (parts : List (List Char)) : List Char :=
  parts.getLastD []

/-- The filter of the candidate loop: the allowed norm `a` shares the
leading token pair and the trailing token with the draft norm `n`. -/
def headTailMatches (n a : List Char) : Bool :=
  decide (headPairOf (splitSp a) = headPairOf (splitSp n) ∧
    tailTokOf (splitSp a) = tailTokOf (splitSp n))

/-- Stable insertion (JS `Array.prototype.sort` is stable) for sorting by
string length ascending, comparator `(a, b) => a.length - b.length`. -/
def insertByLen (a : List Char) : List (List Char) → List (List Char)
  | [] => [a]
  | b :: bs => if b.length < a.length then b :: insertByLen a bs else a :: b :: bs

/-- Stable sort by length ascending. -/
def sortByLen : List (List Char) → List (List Char)
  | [] => []
  | a :: as => insertByLen a (sortByLen as)

/-- Result record of `resolveToAllowedNorm`. -/
structure ResolveRes where
  ok : Bool
  norm : List Char
  replacedFrom : Option (List Char)
deriving DecidableEq, Repr

/-- `resolveToAllowedNorm` (citationGuard.js lines 92–115). -/
def resolveToAllowedNorm (norm : List Char) (allowedNorms : List (List Char)) : ResolveRes :=
  let n := normalizeNorm norm
  if n ∈ allowedNorms then ⟨true, n, none⟩
  else
    let candidates := allowedNorms.filter (fun a => headTailMatches n a)
    if candidates = [] then ⟨false, n, none⟩
    else ⟨true, (sortByLen candidates).headD [], some n⟩

/-! ## sanitizeAnswerCitations (citationGuard.js lines 121–149) -/

/-- The fixed neutral placeholder inserted for unverifiable citations. -/
def citationPlaceholder : List Char :=
  "соответствующая норма (не подтверждена источниками)".toList

/-- `sanitized.replace(raw, repl)` for a plain-string pattern: replace the
first occurrence of `t` (the replacement strings used never contain `$`,
so JS replacement-pattern expansion never applies). -/
def replaceFirst (t r : List Char) : List Char → List Char
  | [] => if t = [] then r else []
  | x :: xs =>
    if t.isPrefixOf (x :: xs) then r ++ (x :: xs).drop t.length
    else x :: replaceFirst t r xs

/-- Result record of `sanitizeAnswerCitations`. -/
structure SanitizeResult where
  sanitizedText : List Char
  removedNorms : List (List Char)
  replacedNorms : List (List Char × List Char)
deriving DecidableEq, Repr

/-- `removed.add n` on a JS `Set` kept as its insertion-ordered list. -/
def addUniqueNorm (l : List (List Char)) (n : List Char) : List (List Char) :=
  if n ∈ l then l else l ++ [n]

/-- The `for (const raw of found)` loop of `sanitizeAnswerCitations`. -/
def sanitizeGo (allowedNorms : List (List Char)) :
    List Char → List (List Char) → List (List Char × List Char) →
    List (List Char) → SanitizeResult
  | s, rm, rp, [] => ⟨s, rm, rp⟩
  | s, rm, rp, raw :: rest =>
    let res := resolveToAllowedNorm raw allowedNorms
    if res.ok = false then
      sanitizeGo allowedNorms (replaceFirst raw citationPlaceholder s)
        (addUniqueNorm rm (normalizeNorm raw)) rp rest
    else
      match res.replacedFrom with
      | some frm =>
        sanitizeGo allowedNorms (replaceFirst raw res.norm s) rm
          (rp ++ [(frm, res.norm)]) rest
      | none => sanitizeGo allowedNorms s rm rp rest

/-- `sanitizeAnswerCitations` (citationGuard.js lines 121–149). -/
def sanitizeAnswerCitations (answerText : List Char) (allowedNorms : List (List Char)) :
    SanitizeResult :=
  let found := jsMatchAll answerText
  if found = [] then ⟨answerText, [], []⟩
  else sanitizeGo allowedNorms answerText [] [] found

/-! ## splitText (scripts/ingest-laws.js lines 65–76)

```js
function splitText(text, maxChars) {
  const chunks = [];
  let rest = text.trim();
  while (rest.length > maxChars) {
    let idx = rest.lastIndexOf(" ", maxChars);
    if (idx < Math.floor(maxChars * 0.6)) idx = maxChars;
    chunks.push(rest.slice(0, idx).trim());
    rest = rest.slice(idx).trim();
  }
  if (rest) chunks.push(rest);
  return chunks;
}
```

`Math.floor(maxChars * 0.6)` equals `6 * maxChars / 10` in natural-number
arithmetic for every `maxChars` in the integer range used here: the double
rounding error of `maxChars * 0.6` is below half an ulp of the exact
rational value, so flooring the double gives the rational floor.
The loop is modelled with fuel; every loop iteration strictly shrinks
`rest` whenever `maxChars ≥ 1`, and the fuel `text.length + 1` then never
runs out (the JS loop does not terminate for `maxChars = 0`, which the
spec excludes by requiring `max_chars > 0`). -/

/-- `rest.lastIndexOf(" ", pos)`: index of the last space at or before
`pos` (JS clamps the start position to the last index). -/
def lastSpaceIdxLe (l : List Char) (pos : Nat) : Option Nat :=
  go (min pos (l.length - 1))
where
  go : Nat → Option Nat
    | 0 => if l.get? 0 = some ' ' then some 0 else none
    | k + 1 => if l.get? (k + 1) = some ' ' then some (k + 1) else go k

/-- The cut index of one loop iteration:
`let idx = rest.lastIndexOf(" ", maxChars); if (idx < Math.floor(maxChars*0.6)) idx = maxChars`
(`lastIndexOf` yields `-1` when absent, modelled by the `Int` value). -/
def splitCut (rest : List Char) (maxChars : Nat) : Nat :=
  let idxI : Int :=
    match lastSpaceIdxLe rest maxChars with
    | some i => (i : Int)
    | none => -1
  if idxI < ((6 * maxChars / 10 : Nat) : Int) then maxChars else idxI.toNat

/-- One pass of the `while` loop of `splitText`, fuelled. -/
def splitTextGo (maxChars : Nat) : Nat → List Char → List (List Char)
  | 0, _ => []
  | fuel + 1, rest =>
    if rest.length ≤ maxChars then
      if rest = [] then [] else [rest]
    else
      jsTrim (rest.take (splitCut rest maxChars)) ::
        splitTextGo maxChars fuel (jsTrim (rest.drop (splitCut rest maxChars)))

/-- `splitText` (ingest-laws.js lines 65–76). -/
def splitText (text : List Char) (maxChars : Nat) : List (List Char) :=
  splitTextGo maxChars (text.length + 1) (jsTrim text)

/-- Modelled from the spec: the split rule exactly as the specification
sentence states it — “cut at the last whitespace at or before
`max_chars`; if no whitespace exists in the first 60% of the window, cut
at exactly `max_chars`”.  Used only to compare the claimed rule with the
implemented one. -/
def lastWsIdxLe (l : List Char) (pos : Nat) : Option Nat :=
  go (min pos (l.length - 1))
where
  go : Nat → Option Nat
    | 0 => if (l.get? 0).any jsWs then some 0 else none
    | k + 1 => if (l.get? (k + 1)).any jsWs then some (k + 1) else go k

/-- Modelled from the spec: greedy split with the claim's literal cut
rule (hard cut only when no whitespace occurs in the first 60% of the
window). -/
def specSplitTextGo (maxChars : Nat) : Nat → List Char → List (List Char)
  | 0, _ => []
  | fuel + 1, rest =>
    if rest.length ≤ maxChars then
      if rest = [] then [] else [rest]
    else
      let idx : Nat :=
        if (rest.take (6 * maxChars / 10)).any jsWs then
          (lastWsIdxLe rest maxChars).getD maxChars
        else maxChars
      jsTrim (rest.take idx) :: specSplitTextGo maxChars fuel (jsTrim (rest.drop idx))

/-- Modelled from the spec: `splitText` as the claim literally describes it. -/
def specSplitText (text : List Char) (maxChars : Nat) : List (List Char) :=
  specSplitTextGo maxChars (text.length + 1) (jsTrim text)

/-! ## Version store (scripts/ingest-laws.js)

Postgres state touched by the ingestion script and by the server's
retrieval queries: the `law_dataset_versions` table (rows keyed by
`version_tag`), the `law_chunks` table, and the
`law_dataset_meta['active_version_tag']` pointer. -/

/-- `law_dataset_versions.status`. -/
inductive VStatus where
  | loading
  | active
  | failed
  | archived
deriving DecidableEq, Repr

/-- A row of `law_dataset_versions` (fields relevant to the claims). -/
structure VersionRow where
  tag : String
  status : VStatus
deriving DecidableEq, Repr

/-- A row of `law_chunks` (fields relevant to the claims). -/
structure LawChunk where
  versionTag : String
  law : String
  text : String
deriving DecidableEq, Repr

/-- Database state: version rows, chunk rows, and the
`active_version_tag` meta record. -/
structure DbState where
  versions : List VersionRow
  chunks : List LawChunk
  activeMeta : Option String
deriving DecidableEq, Repr

/-- `INSERT INTO law_dataset_versions ... VALUES ($1,$2,'loading')
ON CONFLICT (version_tag) DO UPDATE SET ... status='loading'`
(ingest-laws.js lines 169–177). -/
def upsertLoading (tag : String) (vs : List VersionRow) : List VersionRow :=
  if vs.any (fun r => r.tag = tag) then
    vs.map (fun r => if r.tag = tag then { r with status := .loading } else r)
  else vs ++ [⟨tag, .loading⟩]

/-- The two status updates of the commit step (ingest-laws.js
lines 199–200): archive the active version other than `tag`, then set
`tag` active. -/
def commitStatuses (tag : String) (vs : List VersionRow) : List VersionRow :=
  (vs.map (fun r =>
      if r.status = .active ∧ r.tag ≠ tag then { r with status := .archived } else r)).map
    (fun r => if r.tag = tag then { r with status := .active } else r)

/-- `UPDATE law_dataset_versions SET status='failed' WHERE version_tag=$1`
(markVersionFailed, ingest-laws.js lines 25–35). -/
def markFailedRows (tag : String) (vs : List VersionRow) : List VersionRow :=
  vs.map (fun r => if r.tag = tag then { r with status := .failed } else r)

/-- `beginVersion`: the upsert that opens an ingestion run. -/
def beginVersion (tag : String) (s : DbState) : DbState :=
  { s with versions := upsertLoading tag s.versions }

/-- `commitVersion` (ingest-laws.js lines 199–210): archive the old
active version, activate `tag`, repoint `active_version_tag` — all in
the same transaction. -/
def commitVersion (tag : String) (s : DbState) : DbState :=
  { s with versions := commitStatuses tag s.versions, activeMeta := some tag }

/-- `failVersion` / `markVersionFailed`. -/
def failVersion (tag : String) (s : DbState) : DbState :=
  { s with versions := markFailedRows tag s.versions }

/-- `DELETE FROM law_chunks WHERE version_tag = $1` (replace mode). -/
def deleteChunksOf (tag : String) (s : DbState) : DbState :=
  { s with chunks := s.chunks.filter (fun c => c.versionTag ≠ tag) }

/-- `INSERT INTO law_chunks ...`. -/
def insertChunk (c : LawChunk) (s : DbState) : DbState :=
  { s with chunks := s.chunks ++ [c] }

/-- The version-store step relation: the operations an ingestion run can
perform against the store. -/
inductive VStep : DbState → DbState → Prop where
  | beginStep (tag : String) (s : DbState) : VStep s (beginVersion tag s)
  | commitStep (tag : String) (s : DbState) : VStep s (commitVersion tag s)
  | failStep (tag : String) (s : DbState) : VStep s (failVersion tag s)
  | deleteStep (tag : String) (s : DbState) : VStep s (deleteChunksOf tag s)
  | insertStep (c : LawChunk) (s : DbState) : VStep s (insertChunk c s)

/-- The empty database (state after schema creation). -/
def initDb : DbState := ⟨[], [], none⟩

/-- States reachable from the empty database by version-store steps. -/
inductive ReachDb : DbState → Prop where
  | init : ReachDb initDb
  | step {s s' : DbState} : ReachDb s → VStep s s' → ReachDb s'

/-- A failed ingestion run for `tag` (ingest-laws.js lines 212–219):
every write of the run happened inside the open transaction on `client`,
so `ROLLBACK` restores the pre-run state; `markVersionFailed` then runs
on a fresh connection outside the transaction. -/
def ingestRunFailed (tag : String) (s : DbState) : DbState :=
  failVersion tag s

/-! ## Query-time version resolution (server `retrieveLegalSources`)

The `effective_version` CTE of the retrieval SQL:

```sql
WITH active_version AS (SELECT value FROM law_dataset_meta WHERE key='active_version_tag'),
effective_version AS (SELECT CASE
  WHEN EXISTS (SELECT 1 FROM law_chunks WHERE version_tag = (SELECT version_tag FROM active_version))
  THEN (SELECT version_tag FROM active_version)
  ELSE (SELECT MAX(version_tag) FROM law_chunks) END AS version_tag)
SELECT ... FROM law_chunks lc
WHERE ((SELECT version_tag FROM effective_version) IS NULL
       OR lc.version_tag = (SELECT version_tag FROM effective_version))
AND (COALESCE(array_length($3::text[],1),0) = 0 OR lc.law = ANY($3::text[]))
ORDER BY lc.embedding <=> $1::vector LIMIT $2
```

SQL `NULL` semantics: an unset pointer makes the `EXISTS` comparison
false, selecting the `MAX` branch; `MAX` over an empty table is `NULL`,
which disables the version filter. -/

/-- `MAX(version_tag) FROM law_chunks` (text maximum). -/
def maxChunkTag (chunks : List LawChunk) : Option String :=
  chunks.foldl
    (fun acc c =>
      match acc with
      | none => some c.versionTag
      | some m => some (if m < c.versionTag then c.versionTag else m))
    none

/-- The `effective_version` CTE. -/
def effectiveVersionTag (meta : Option String) (chunks : List LawChunk) : Option String :=
  match meta with
  | some t => if chunks.any (fun c => c.versionTag = t) then some t else maxChunkTag chunks
  | none => maxChunkTag chunks

/-- Stable insertion by ascending score (the `ORDER BY` distance). -/
def insertByScore (score : LawChunk → Nat) (c : LawChunk) :
    List LawChunk → List LawChunk
  | [] => [c]
  | d :: ds => if score d ≤ score c then d :: insertByScore score c ds else c :: d :: ds

/-- Stable sort by ascending score. -/
def sortByScore (score : LawChunk → Nat) : List LawChunk → List LawChunk
  | [] => []
  | c :: cs => insertByScore score c (sortByScore score cs)

/-- `retrieveLegalSources` (server, `part_003` lines 154–215), after the
embedding call: the vector distance is abstracted as a `score` function
on chunks (the claims do not depend on the metric). -/
def retrieveLegalSources (score : LawChunk → Nat) (s : DbState)
    (lawCodes : List String) (limit : Nat) : List LawChunk :=
  let eff := effectiveVersionTag s.activeMeta s.chunks
  let selected := s.chunks.filter (fun c =>
    (match eff with
     | none => true
     | some t => c.versionTag = t) &&
    (lawCodes.isEmpty || lawCodes.contains c.law))
  (sortByScore score selected).take limit

/-! ## Infrastructure for the idempotence proof of normalizeNorm

`ctxOk v` states that the text `v` following one occurrence of a
replacement token is already in replaced form: empty, or one space
followed by end-of-string or a non-whitespace character.  `GoodB t s`
states that every occurrence of the token `t` in `s` has such a context;
`replTok` is then the identity on `s` up to one space appended when `s`
ends with the bare token.  `noDoubleWs s` states that every whitespace
character of `s` is a plain space and no two whitespace characters are
adjacent — the shape `collapseWs` establishes. -/

/-- Context after a token occurrence is in normal form. -/
def ctxOk : List Char → Bool
  | [] => true
  | c :: rest =>
    decide (c = ' ') &&
      (match rest with
       | [] => true
       | d :: _ => !jsWs d)

/-- Every occurrence of `t` (as a prefix of a suffix of `s`) has a
normal-form context. -/
def GoodB (t : List Char) : List Char → Bool
  | [] => true
  | x :: xs =>
    (if t.isPrefixOf (x :: xs) then ctxOk ((x :: xs).drop t.length) else true) &&
      GoodB t xs

/-- All whitespace is the plain space and never doubled. -/
def noDoubleWs (s : List Char) : Prop :=
  (∀ c ∈ s, jsWs c = true → c = ' ') ∧
    List.Chain' (fun a b => jsWs a = false ∨ jsWs b = false) s

/-! ## Lemmas about the sorting and resolution helpers -/

theorem mem_insertByLen {x a : List Char} {l : List (List Char)} :
    x ∈ insertByLen a l ↔ x = a ∨ x ∈ l := by
  induction l with
  | nil => simp [insertByLen]
  | cons b bs ih =>
    by_cases h : b.length < a.length
    · simp only [insertByLen, if_pos h, List.mem_cons, ih]
      tauto
    · simp only [insertByLen, if_neg h, List.mem_cons]

theorem mem_sortByLen {x : List Char} {l : List (List Char)} :
    x ∈ sortByLen l ↔ x ∈ l := by
  induction l with
  | nil => simp [sortByLen]
  | cons a as ih =>
    simp only [sortByLen, mem_insertByLen, ih, List.mem_cons]

theorem insertByLen_pairwise {a : List Char} {l : List (List Char)}
    (h : l.Pairwise (fun x y => x.length ≤ y.length)) :
    (insertByLen a l).Pairwise (fun x y => x.length ≤ y.length) := by
  induction l with
  | nil => simp [insertByLen]
  | cons b bs ih =>
    rcases List.pairwise_cons.mp h with ⟨hb, hbs⟩
    by_cases hlen : b.length < a.length
    · simp only [insertByLen, if_pos hlen]
      refine List.pairwise_cons.mpr ⟨?_, ih hbs⟩
      intro y hy
      rcases mem_insertByLen.mp hy with rfl | hy'
      · exact Nat.le_of_lt hlen
      · exact hb y hy'
    · simp only [insertByLen, if_neg hlen]
      refine List.pairwise_cons.mpr ⟨?_, h⟩
      intro y hy
      rcases List.mem_cons.mp hy with rfl | hy'
      · exact Nat.le_of_not_lt hlen
      · exact Nat.le_trans (Nat.le_of_not_lt hlen) (hb y hy')

theorem sortByLen_pairwise (l : List (List Char)) :
    (sortByLen l).Pairwise (fun x y => x.length ≤ y.length) := by
  induction l with
  | nil => simp [sortByLen]
  | cons a as ih => exact insertByLen_pairwise ih

theorem headD_sortByLen_mem {l : List (List Char)} (h : l ≠ []) :
    (sortByLen l).headD [] ∈ l := by
  rw [← mem_sortByLen]
  cases hs : sortByLen l with
  | nil =>
    cases l with
    | nil => exact absurd rfl h
    | cons a as =>
      have := mem_sortByLen.mpr (List.mem_cons_self a as)
      rw [hs] at this
      exact absurd this (List.not_mem_nil _)
  | cons b bs => simp [hs]

theorem headD_sortByLen_minimal {l : List (List Char)} {x : List Char} (hx : x ∈ l) :
    ((sortByLen l).headD []).length ≤ x.length := by
  have hmem : x ∈ sortByLen l := mem_sortByLen.mpr hx
  cases hs : sortByLen l with
  | nil => rw [hs] at hmem; exact absurd hmem (List.not_mem_nil _)
  | cons b bs =>
    have hp := sortByLen_pairwise l
    rw [hs] at hp hmem
    rcases List.mem_cons.mp hmem with rfl | h'
    · simp
    · exact (List.pairwise_cons.mp hp).1 x h'

/-! ## Lemmas about resolveToAllowedNorm -/

theorem resolve_of_mem {raw : List Char} {a : List (List Char)}
    (h : normalizeNorm raw ∈ a) :
    resolveToAllowedNorm raw a = ⟨true, normalizeNorm raw, none⟩ := by
  simp [resolveToAllowedNorm, h]

theorem resolve_not_ok_not_mem {raw : List Char} {a : List (List Char)}
    (h : (resolveToAllowedNorm raw a).ok = false) :
    normalizeNorm raw ∉ a := by
  intro hm
  rw [resolve_of_mem hm] at h
  exact Bool.true_eq_false.mp h

theorem resolve_not_ok_no_candidates {raw : List Char} {a : List (List Char)}
    (h : (resolveToAllowedNorm raw a).ok = false) :
    a.filter (fun x => headTailMatches (normalizeNorm raw) x) = [] := by
  by_cases h1 : normalizeNorm raw ∈ a
  · rw [resolve_of_mem h1] at h
    exact absurd h (by simp)
  · by_cases h2 : a.filter (fun x => headTailMatches (normalizeNorm raw) x) = []
    · exact h2
    · exfalso
      have : (resolveToAllowedNorm raw a).ok = true := by
        simp only [resolveToAllowedNorm, if_neg h1, if_neg h2]
      rw [this] at h
      exact Bool.true_eq_false.mp h

theorem resolve_replacedFrom_some {raw frm : List Char} {a : List (List Char)}
    (h : (resolveToAllowedNorm raw a).replacedFrom = some frm) :
    frm = normalizeNorm raw ∧ normalizeNorm raw ∉ a ∧
      (resolveToAllowedNorm raw a).ok = true ∧
      (resolveToAllowedNorm raw a).norm ∈
        a.filter (fun x => headTailMatches (normalizeNorm raw) x) := by
  by_cases h1 : normalizeNorm raw ∈ a
  · rw [resolve_of_mem h1] at h
    exact absurd h (by simp)
  · by_cases h2 : a.filter (fun x => headTailMatches (normalizeNorm raw) x) = []
    · have : (resolveToAllowedNorm raw a).replacedFrom = none := by
        simp only [resolveToAllowedNorm, if_neg h1, if_pos h2]
      rw [this] at h
      exact absurd h (by simp)
    · have hres : resolveToAllowedNorm raw a =
          ⟨true, (sortByLen (a.filter (fun x => headTailMatches (normalizeNorm raw) x))).headD [],
            some (normalizeNorm raw)⟩ := by
        simp only [resolveToAllowedNorm, if_neg h1, if_neg h2]
      rw [hres] at h ⊢
      refine ⟨(Option.some_inj.mp h).symm, h1, rfl, headD_sortByLen_mem h2⟩

theorem resolve_replacedFrom_none_of_ok {raw : List Char} {a : List (List Char)}
    (hok : (resolveToAllowedNorm raw a).ok = true)
    (hrf : (resolveToAllowedNorm raw a).replacedFrom = none) :
    resolveToAllowedNorm raw a = ⟨true, normalizeNorm raw, none⟩ := by
  by_cases h1 : normalizeNorm raw ∈ a
  · exact resolve_of_mem h1
  · by_cases h2 : a.filter (fun x => headTailMatches (normalizeNorm raw) x) = []
    · have : (resolveToAllowedNorm raw a).ok = false := by
        simp only [resolveToAllowedNorm, if_neg h1, if_pos h2]
      rw [this] at hok
      exact absurd hok (by simp)
    · have : (resolveToAllowedNorm raw a).replacedFrom = some (normalizeNorm raw) := by
        simp only [resolveToAllowedNorm, if_neg h1, if_neg h2]
      rw [this] at hrf
      exact absurd hrf (by simp)

/-! ## Lemmas about the sanitize loop -/

theorem mem_addUniqueNorm_self (l : List (List Char)) (n : List Char) :
    n ∈ addUniqueNorm l n := by
  by_cases h : n ∈ l
  · simp [addUniqueNorm, h]
  · simp [addUniqueNorm, h]

theorem mem_addUniqueNorm_of_mem {l : List (List Char)} {x n : List Char}
    (h : x ∈ l) : x ∈ addUniqueNorm l n := by
  by_cases hn : n ∈ l
  · simpa [addUniqueNorm, hn]
  · simp [addUniqueNorm, hn, List.mem_append, h]

theorem mem_of_mem_addUniqueNorm {l : List (List Char)} {x n : List Char}
    (h : x ∈ addUniqueNorm l n) : x ∈ l ∨ x = n := by
  by_cases hn : n ∈ l
  · simp only [addUniqueNorm, if_pos hn] at h
    exact Or.inl h
  · simp only [addUniqueNorm, if_neg hn, List.mem_append, List.mem_singleton] at h
    exact h

theorem sanitizeGo_removed_mono (a : List (List Char)) (l : List (List Char)) :
    ∀ s rm rp x, x ∈ rm → x ∈ (sanitizeGo a s rm rp l).removedNorms := by
  induction l with
  | nil => intro s rm rp x hx; simpa [sanitizeGo] using hx
  | cons raw rest ih =>
    intro s rm rp x hx
    by_cases h : (resolveToAllowedNorm raw a).ok = false
    · simp only [sanitizeGo, h, if_true]
      exact ih _ _ _ _ (mem_addUniqueNorm_of_mem hx)
    · simp only [sanitizeGo, h, if_false]
      cases hrf : (resolveToAllowedNorm raw a).replacedFrom with
      | none => exact ih _ _ _ _ hx
      | some frm => exact ih _ _ _ _ hx

theorem sanitizeGo_replaced_mono (a : List (List Char)) (l : List (List Char)) :
    ∀ s rm rp p, p ∈ rp → p ∈ (sanitizeGo a s rm rp l).replacedNorms := by
  induction l with
  | nil => intro s rm rp p hp; simpa [sanitizeGo] using hp
  | cons raw rest ih =>
    intro s rm rp p hp
    by_cases h : (resolveToAllowedNorm raw a).ok = false
    · simp only [sanitizeGo, h, if_true]
      exact ih _ _ _ _ hp
    · simp only [sanitizeGo, h, if_false]
      cases hrf : (resolveToAllowedNorm raw a).replacedFrom with
      | none => exact ih _ _ _ _ hp
      | some frm => exact ih _ _ _ _ (by simp [List.mem_append, hp])

theorem sanitizeGo_removed_spec (a : List (List Char)) (l : List (List Char)) :
    ∀ s rm rp raw, raw ∈ l → (resolveToAllowedNorm raw a).ok = false →
      normalizeNorm raw ∈ (sanitizeGo a s rm rp l).removedNorms := by
  induction l with
  | nil => intro s rm rp raw hraw; exact absurd hraw (List.not_mem_nil _)
  | cons raw0 rest ih =>
    intro s rm rp raw hraw hok
    rcases List.mem_cons.mp hraw with rfl | hmem
    · simp only [sanitizeGo, hok, if_true]
      exact sanitizeGo_removed_mono a rest _ _ _ _ (mem_addUniqueNorm_self rm (normalizeNorm raw))
    · by_cases h : (resolveToAllowedNorm raw0 a).ok = false
      · simp only [sanitizeGo, h, if_true]
        exact ih _ _ _ _ hmem hok
      · simp only [sanitizeGo, h, if_false]
        cases hrf : (resolveToAllowedNorm raw0 a).replacedFrom with
        | none => exact ih _ _ _ _ hmem hok
        | some frm => exact ih _ _ _ _ hmem hok

theorem sanitizeGo_replaced_spec (a : List (List Char)) (l : List (List Char)) :
    ∀ s rm rp raw frm, raw ∈ l → (resolveToAllowedNorm raw a).replacedFrom = some frm →
      (frm, (resolveToAllowedNorm raw a).norm) ∈ (sanitizeGo a s rm rp l).replacedNorms := by
  induction l with
  | nil => intro s rm rp raw frm hraw; exact absurd hraw (List.not_mem_nil _)
  | cons raw0 rest ih =>
    intro s rm rp raw frm hraw hrf
    rcases List.mem_cons.mp hraw with rfl | hmem
    · have hok : (resolveToAllowedNorm raw a).ok = true :=
        (resolve_replacedFrom_some hrf).2.2.1
      simp only [sanitizeGo, hok, Bool.true_eq_false, if_false, hrf]
      exact sanitizeGo_replaced_mono a rest _ _ _ _ (by simp)
    · by_cases h : (resolveToAllowedNorm raw0 a).ok = false
      · simp only [sanitizeGo, h, if_true]
        exact ih _ _ _ _ _ hmem hrf
      · simp only [sanitizeGo, h, if_false]
        cases hrf0 : (resolveToAllowedNorm raw0 a).replacedFrom with
        | none => exact ih _ _ _ _ _ hmem hrf
        | some frm0 => exact ih _ _ _ _ _ hmem hrf

theorem sanitizeGo_removed_not_allowed (a : List (List Char)) (l : List (List Char)) :
    ∀ s rm rp, (∀ x ∈ rm, x ∉ a) →
      ∀ x ∈ (sanitizeGo a s rm rp l).removedNorms, x ∉ a := by
  induction l with
  | nil => intro s rm rp hrm x hx; exact hrm x (by simpa [sanitizeGo] using hx)
  | cons raw rest ih =>
    intro s rm rp hrm x hx
    by_cases h : (resolveToAllowedNorm raw a).ok = false
    · simp only [sanitizeGo, h, if_true] at hx
      refine ih _ _ _ ?_ x hx
      intro y hy
      rcases mem_of_mem_addUniqueNorm hy with hy' | rfl
      · exact hrm y hy'
      · exact resolve_not_ok_not_mem h
    · simp only [sanitizeGo, h, if_false] at hx
      cases hrf : (resolveToAllowedNorm raw a).replacedFrom with
      | none => rw [hrf] at hx; exact ih _ _ _ hrm x hx
      | some frm => rw [hrf] at hx; exact ih _ _ _ hrm x hx

theorem sanitizeGo_replaced_allowed (a : List (List Char)) (l : List (List Char)) :
    ∀ s rm rp, (∀ p ∈ rp, p.2 ∈ a ∧ p.1 ∉ a) →
      ∀ p ∈ (sanitizeGo a s rm rp l).replacedNorms, p.2 ∈ a ∧ p.1 ∉ a := by
  induction l with
  | nil => intro s rm rp hrp p hp; exact hrp p (by simpa [sanitizeGo] using hp)
  | cons raw rest ih =>
    intro s rm rp hrp p hp
    by_cases h : (resolveToAllowedNorm raw a).ok = false
    · simp only [sanitizeGo, h, if_true] at hp
      exact ih _ _ _ hrp p hp
    · simp only [sanitizeGo, h, if_false] at hp
      cases hrf : (resolveToAllowedNorm raw a).replacedFrom with
      | none => rw [hrf] at hp; exact ih _ _ _ hrp p hp
      | some frm =>
        rw [hrf] at hp
        refine ih _ _ _ ?_ p hp
        intro q hq
        rcases List.mem_append.mp hq with hq' | hq'
        · exact hrp q hq'
        · rcases resolve_replacedFrom_some hrf with ⟨hfrm, hnmem, _, hmemf⟩
          rcases List.mem_singleton.mp hq' with rfl
          refine ⟨List.mem_of_mem_filter hmemf, ?_⟩
          simpa [hfrm] using hnmem

theorem sanitizeGo_id_of_allowed (a : List (List Char)) (l : List (List Char)) :
    ∀ s rm rp, (∀ raw ∈ l, normalizeNorm raw ∈ a) →
      sanitizeGo a s rm rp l = ⟨s, rm, rp⟩ := by
  induction l with
  | nil => intro s rm rp _; simp [sanitizeGo]
  | cons raw rest ih =>
    intro s rm rp hall
    have hres := resolve_of_mem (hall raw (List.mem_cons_self raw rest))
    simp only [sanitizeGo, hres, Bool.true_eq_false, if_false]
    exact ih _ _ _ (fun r hr => hall r (List.mem_cons_of_mem raw hr))

/-! ## Defining equations for the fuelled scans -/

theorem collapseWsF_fuel_irrel :
    ∀ f1 f2 s, s.length ≤ f1 → s.length ≤ f2 → collapseWsF f1 s = collapseWsF f2 s := by
  intro f1
  induction f1 with
  | zero =>
    intro f2 s h1 _
    have hs : s = [] := List.length_eq_zero.mp (Nat.le_zero.mp h1)
    subst hs
    cases f2 <;> simp [collapseWsF]
  | succ f1 ih =>
    intro f2 s h1 h2
    cases s with
    | nil => cases f2 <;> simp [collapseWsF]
    | cons x xs =>
      cases f2 with
      | zero => simp at h2
      | succ g =>
        simp only [List.length_cons, Nat.succ_le_succ_iff] at h1 h2
        simp only [collapseWsF]
        by_cases h : jsWs x
        · simp only [if_pos h]
          have hd := (List.dropWhile_sublist (l := xs) (p := jsWs)).length_le
          exact congrArg (' ' :: ·) (ih g _ (Nat.le_trans hd h1) (Nat.le_trans hd h2))
        · simp only [if_neg h]
          exact congrArg (x :: ·) (ih g xs h1 h2)

theorem collapseWs_nil : collapseWs [] = [] := rfl

theorem collapseWs_cons (x : Char) (xs : List Char) :
    collapseWs (x :: xs) =
      if jsWs x then ' ' :: collapseWs (xs.dropWhile jsWs) else x :: collapseWs xs := by
  show collapseWsF (x :: xs).length (x :: xs) = _
  simp only [List.length_cons, collapseWsF]
  by_cases h : jsWs x
  · simp only [if_pos h]
    have hd := (List.dropWhile_sublist (l := xs) (p := jsWs)).length_le
    exact congrArg (' ' :: ·) (collapseWsF_fuel_irrel _ _ _ hd (Nat.le_refl _))
  · simp only [if_neg h]
    rfl

theorem replTokF_fuel_irrel (c : Char) (cs : List Char) :
    ∀ f1 f2 s, s.length ≤ f1 → s.length ≤ f2 → replTokF c cs f1 s = replTokF c cs f2 s := by
  intro f1
  induction f1 with
  | zero =>
    intro f2 s h1 _
    have hs : s = [] := List.length_eq_zero.mp (Nat.le_zero.mp h1)
    subst hs
    cases f2 <;> simp [replTokF]
  | succ f1 ih =>
    intro f2 s h1 h2
    cases s with
    | nil => cases f2 <;> simp [replTokF]
    | cons x xs =>
      cases f2 with
      | zero => simp at h2
      | succ g =>
        simp only [List.length_cons, Nat.succ_le_succ_iff] at h1 h2
        simp only [replTokF]
        by_cases h : (c :: cs).isPrefixOf (x :: xs)
        · simp only [if_pos h]
          have hd := (List.dropWhile_sublist (l := xs.drop cs.length) (p := jsWs)).length_le
          have hdr : (xs.drop cs.length).length ≤ xs.length := by
            simp [List.length_drop]
          refine congrArg ((c :: cs) ++ ' ' :: ·) (ih g _ ?_ ?_)
          · exact Nat.le_trans (Nat.le_trans hd hdr) h1
          · exact Nat.le_trans (Nat.le_trans hd hdr) h2
        · simp only [if_neg h]
          exact congrArg (x :: ·) (ih g xs h1 h2)

theorem replTok_nil (c : Char) (cs : List Char) : replTok c cs [] = [] := rfl

theorem replTok_cons (c : Char) (cs : List Char) (x : Char) (xs : List Char) :
    replTok c cs (x :: xs) =
      if (c :: cs).isPrefixOf (x :: xs) then
        (c :: cs) ++ ' ' :: replTok c cs ((xs.drop cs.length).dropWhile jsWs)
      else x :: replTok c cs xs := by
  show replTokF c cs (x :: xs).length (x :: xs) = _
  simp only [List.length_cons, replTokF]
  by_cases h : (c :: cs).isPrefixOf (x :: xs)
  · simp only [if_pos h]
    have hd := (List.dropWhile_sublist (l := xs.drop cs.length) (p := jsWs)).length_le
    have hdr : (xs.drop cs.length).length ≤ xs.length := by
      simp [List.length_drop]
    exact congrArg ((c :: cs) ++ ' ' :: ·)
      (replTokF_fuel_irrel c cs _ _ _ (Nat.le_trans hd hdr) (Nat.le_refl _))
  · simp only [if_neg h]
    rfl

theorem collapseWsF_len_le : ∀ fuel s, (collapseWsF fuel s).length ≤ s.length := by
  intro fuel
  induction fuel with
  | zero => intro s; simp [collapseWsF]
  | succ f ih =>
    intro s
    cases s with
    | nil => simp [collapseWsF]
    | cons x xs =>
      simp only [collapseWsF]
      by_cases h : jsWs x
      · simp only [if_pos h, List.length_cons]
        have hd := (List.dropWhile_sublist (l := xs) (p := jsWs)).length_le
        have := ih (xs.dropWhile jsWs)
        omega
      · simp only [if_neg h, List.length_cons]
        have := ih xs
        omega

theorem replTokF_len_le (c : Char) (cs : List Char) :
    ∀ fuel s, (replTokF c cs fuel s).length ≤ 2 * s.length := by
  intro fuel
  induction fuel with
  | zero => intro s; simp [replTokF]; omega
  | succ f ih =>
    intro s
    cases s with
    | nil => simp [replTokF]
    | cons x xs =>
      simp only [replTokF]
      by_cases h : (c :: cs).isPrefixOf (x :: xs)
      · simp only [if_pos h]
        have hlen : cs.length ≤ xs.length := by
          have := (List.isPrefixOf_iff_prefix.mp h).length_le
          simpa using this
        have hd := (List.dropWhile_sublist (l := xs.drop cs.length) (p := jsWs)).length_le
        have hdr : (xs.drop cs.length).length = xs.length - cs.length := List.length_drop _ _
        have := ih ((xs.drop cs.length).dropWhile jsWs)
        simp only [List.length_append, List.length_cons]
        omega
      · simp only [if_neg h, List.length_cons]
        have := ih xs
        omega

theorem normalizeNorm_eq (s : List Char) :
    normalizeNorm s =
      jsTrim (replTok 'B' "uchst.".toList (replTok 'l' "it.".toList
        (replTok 'S' "atz".toList (replTok 'N' "r.".toList
          (replTok 'A' "bs.".toList (replTok 'A' "rt.".toList
            (replTok '§' [] (collapseWs s)))))))) := by
  show jsTrim _ = jsTrim _
  refine congrArg jsTrim ?_
  have h0 : (collapseWsF (128 * (s.length + 1)) s).length ≤ s.length :=
    collapseWsF_len_le _ s
  have e0 : collapseWsF (128 * (s.length + 1)) s = collapseWs s :=
    collapseWsF_fuel_irrel _ _ s (by omega) (Nat.le_refl _)
  rw [e0]
  set a0 := collapseWs s with ha0
  have l0 : a0.length ≤ 128 * (s.length + 1) := by
    have : a0.length ≤ s.length := collapseWsF_len_le _ s
    omega
  have e1 : replTokF '§' [] (128 * (s.length + 1)) a0 = replTok '§' [] a0 :=
    replTokF_fuel_irrel _ _ _ _ _ l0 (Nat.le_refl _)
  rw [e1]
  set a1 := replTok '§' [] a0 with ha1
  have l1 : a1.length ≤ 128 * (s.length + 1) := by
    have h1 : a1.length ≤ 2 * a0.length := replTokF_len_le _ _ _ _
    have : a0.length ≤ s.length := collapseWsF_len_le _ s
    omega
  have e2 : replTokF 'A' "rt.".toList (128 * (s.length + 1)) a1 = replTok 'A' "rt.".toList a1 :=
    replTokF_fuel_irrel _ _ _ _ _ l1 (Nat.le_refl _)
  rw [e2]
  set a2 := replTok 'A' "rt.".toList a1 with ha2
  have l2 : a2.length ≤ 128 * (s.length + 1) := by
    have h2 : a2.length ≤ 2 * a1.length := replTokF_len_le _ _ _ _
    have h1 : a1.length ≤ 2 * a0.length := replTokF_len_le _ _ _ _
    have : a0.length ≤ s.length := collapseWsF_len_le _ s
    omega
  have e3 : replTokF 'A' "bs.".toList (128 * (s.length + 1)) a2 = replTok 'A' "bs.".toList a2 :=
    replTokF_fuel_irrel _ _ _ _ _ l2 (Nat.le_refl _)
  rw [e3]
  set a3 := replTok 'A' "bs.".toList a2 with ha3
  have l3 : a3.length ≤ 128 * (s.length + 1) := by
    have h3 : a3.length ≤ 2 * a2.length := replTokF_len_le _ _ _ _
    have h2 : a2.length ≤ 2 * a1.length := replTokF_len_le _ _ _ _
    have h1 : a1.length ≤ 2 * a0.length := replTokF_len_le _ _ _ _
    have : a0.length ≤ s.length := collapseWsF_len_le _ s
    omega
  have e4 : replTokF 'N' "r.".toList (128 * (s.length + 1)) a3 = replTok 'N' "r.".toList a3 :=
    replTokF_fuel_irrel _ _ _ _ _ l3 (Nat.le_refl _)
  rw [e4]
  set a4 := replTok 'N' "r.".toList a3 with ha4
  have l4 : a4.length ≤ 128 * (s.length + 1) := by
    have h4 : a4.length ≤ 2 * a3.length := replTokF_len_le _ _ _ _
    have h3 : a3.length ≤ 2 * a2.length := replTokF_len_le _ _ _ _
    have h2 : a2.length ≤ 2 * a1.length := replTokF_len_le _ _ _ _
    have h1 : a1.length ≤ 2 * a0.length := replTokF_len_le _ _ _ _
    have : a0.length ≤ s.length := collapseWsF_len_le _ s
    omega
  have e5 : replTokF 'S' "atz".toList (128 * (s.length + 1)) a4 = replTok 'S' "atz".toList a4 :=
    replTokF_fuel_irrel _ _ _ _ _ l4 (Nat.le_refl _)
  rw [e5]
  set a5 := replTok 'S' "atz".toList a4 with ha5
  have l5 : a5.length ≤ 128 * (s.length + 1) := by
    have h5 : a5.length ≤ 2 * a4.length := replTokF_len_le _ _ _ _
    have h4 : a4.length ≤ 2 * a3.length := replTokF_len_le _ _ _ _
    have h3 : a3.length ≤ 2 * a2.length := replTokF_len_le _ _ _ _
    have h2 : a2.length ≤ 2 * a1.length := replTokF_len_le _ _ _ _
    have h1 : a1.length ≤ 2 * a0.length := replTokF_len_le _ _ _ _
    have : a0.length ≤ s.length := collapseWsF_len_le _ s
    omega
  have e6 : replTokF 'l' "it.".toList (128 * (s.length + 1)) a5 = replTok 'l' "it.".toList a5 :=
    replTokF_fuel_irrel _ _ _ _ _ l5 (Nat.le_refl _)
  rw [e6]
  set a6 := replTok 'l' "it.".toList a5 with ha6
  have l6 : a6.length ≤ 128 * (s.length + 1) := by
    have h6 : a6.length ≤ 2 * a5.length := replTokF_len_le _ _ _ _
    have h5 : a5.length ≤ 2 * a4.length := replTokF_len_le _ _ _ _
    have h4 : a4.length ≤ 2 * a3.length := replTokF_len_le _ _ _ _
    have h3 : a3.length ≤ 2 * a2.length := replTokF_len_le _ _ _ _
    have h2 : a2.length ≤ 2 * a1.length := replTokF_len_le _ _ _ _
    have h1 : a1.length ≤ 2 * a0.length := replTokF_len_le _ _ _ _
    have : a0.length ≤ s.length := collapseWsF_len_le _ s
    omega
  exact replTokF_fuel_irrel _ _ _ _ _ l6 (Nat.le_refl _)

/-! ## Additional resolve lemma: minimality of the chosen upgrade -/

theorem resolve_norm_minimal {raw frm : List Char} {a : List (List Char)}
    (h : (resolveToAllowedNorm raw a).replacedFrom = some frm) :
    ∀ x ∈ a, headTailMatches (normalizeNorm raw) x = true →
      (resolveToAllowedNorm raw a).norm.length ≤ x.length := by
  intro x hx hmatch
  by_cases h1 : normalizeNorm raw ∈ a
  · rw [resolve_of_mem h1] at h
    exact absurd h (by simp)
  · by_cases h2 : a.filter (fun y => headTailMatches (normalizeNorm raw) y) = []
    · have : x ∈ a.filter (fun y => headTailMatches (normalizeNorm raw) y) :=
        List.mem_filter.mpr ⟨hx, hmatch⟩
      rw [h2] at this
      exact absurd this (List.not_mem_nil x)
    · have hres : (resolveToAllowedNorm raw a).norm =
          (sortByLen (a.filter (fun y => headTailMatches (normalizeNorm raw) y))).headD [] := by
        simp only [resolveToAllowedNorm, if_neg h1, if_neg h2]
      rw [hres]
      exact headD_sortByLen_minimal (List.mem_filter.mpr ⟨hx, hmatch⟩)

/-! ## Claim theorems: citation guard -/

/-- **C1** (amended).  The claimed textual allowlist containment fails
(see `c1_containment_counterexample`); what the sanitizer does guarantee,
for every answer text and every allowlist, is fail-closed bookkeeping:
every norm it records as removed is not a member of `allowedNorms`, and
every recorded replacement rewrites a non-allowed canonical citation to a
member of `allowedNorms`. -/
theorem c1_sanitize_fail_closed_records :
    ∀ (text : List Char) (allowed : List (List Char)),
      (∀ n ∈ (sanitizeAnswerCitations text allowed).removedNorms, n ∉ allowed) ∧
      (∀ p ∈ (sanitizeAnswerCitations text allowed).replacedNorms,
        p.2 ∈ allowed ∧ p.1 ∉ allowed) := by
  intro text allowed
  by_cases h : jsMatchAll text = []
  · constructor
    · intro n hn
      simp [sanitizeAnswerCitations, h] at hn
    · intro p hp
      simp [sanitizeAnswerCitations, h] at hp
  · have e : sanitizeAnswerCitations text allowed =
        sanitizeGo allowed text [] [] (jsMatchAll text) := by
      simp [sanitizeAnswerCitations, h]
    rw [e]
    exact ⟨sanitizeGo_removed_not_allowed allowed (jsMatchAll text) text [] []
        (fun x hx => absurd hx (List.not_mem_nil x)),
      sanitizeGo_replaced_allowed allowed (jsMatchAll text) text [] []
        (fun p hp => absurd hp (List.not_mem_nil p))⟩

/-- **C1** witness: concrete instance of the amended claim — the norm
`"§ 999 BGB"` recorded as removed on a concrete draft is indeed not in
the allowlist. -/
theorem c1_sanitize_fail_closed_records_witness :
    "§ 999 BGB".toList ∉ ["§ 823 Abs. 1 BGB".toList] :=
  (c1_sanitize_fail_closed_records "§ 999 BGB".toList ["§ 823 Abs. 1 BGB".toList]).1
    "§ 999 BGB".toList (by decide)

/-- **C1** counterexample: the claim as stated is false.  With
`allowedNorms = {"§ 823 BGB"}` and draft `"§ 823 BGB und § 823"`, the
loop removes the unverifiable `"§ 823"` by replacing its *first*
occurrence, which sits inside the leading allowed citation; the trailing
`"§ 823"` survives in `sanitizedText` even though it is norm-shaped and
not allowed. -/
theorem c1_containment_counterexample :
    ¬ (∀ m ∈ jsMatchAll (sanitizeAnswerCitations ("§ 823 BGB und § 823".toList)
          ["§ 823 BGB".toList]).sanitizedText,
        normalizeNorm m ∈ ["§ 823 BGB".toList]) := by
  decide

/-- **C2**.  A citation whose canonical form is not allowed but whose
leading token pair and trailing law-code token match at least one
allowed norm is rewritten to a shortest such allowed norm, and the pair
is recorded in `replacedNorms`; in particular
`"§ 823 BGB"` upgrades to `"§ 823 Abs. 1 BGB"`. -/
theorem c2_canonical_upgrade :
    (∀ (text : List Char) (allowed : List (List Char)) (raw : List Char),
      raw ∈ jsMatchAll text →
      normalizeNorm raw ∉ allowed →
      (∃ x ∈ allowed, headTailMatches (normalizeNorm raw) x = true) →
      ∃ up,
        (normalizeNorm raw, up) ∈ (sanitizeAnswerCitations text allowed).replacedNorms ∧
        up ∈ allowed ∧ headTailMatches (normalizeNorm raw) up = true ∧
        ∀ x ∈ allowed, headTailMatches (normalizeNorm raw) x = true →
          up.length ≤ x.length) ∧
    sanitizeAnswerCitations "§ 823 BGB".toList ["§ 823 Abs. 1 BGB".toList] =
      ⟨"§ 823 Abs. 1 BGB".toList, [], [("§ 823 BGB".toList, "§ 823 Abs. 1 BGB".toList)]⟩ := by
  constructor
  · intro text allowed raw hraw hmem hcand
    have hfil : allowed.filter (fun y => headTailMatches (normalizeNorm raw) y) ≠ [] := by
      rcases hcand with ⟨x, hx, hm⟩
      intro hnil
      have : x ∈ allowed.filter (fun y => headTailMatches (normalizeNorm raw) y) :=
        List.mem_filter.mpr ⟨hx, hm⟩
      rw [hnil] at this
      exact absurd this (List.not_mem_nil x)
    have hrf : (resolveToAllowedNorm raw allowed).replacedFrom = some (normalizeNorm raw) := by
      simp only [resolveToAllowedNorm, if_neg hmem, if_neg hfil]
    have hfound : jsMatchAll text ≠ [] := by
      intro hnil
      rw [hnil] at hraw
      exact absurd hraw (List.not_mem_nil raw)
    have e : sanitizeAnswerCitations text allowed =
        sanitizeGo allowed text [] [] (jsMatchAll text) := by
      simp [sanitizeAnswerCitations, hfound]
    refine ⟨(resolveToAllowedNorm raw allowed).norm, ?_, ?_, ?_, ?_⟩
    · rw [e]
      exact sanitizeGo_replaced_spec allowed (jsMatchAll text) text [] [] raw
        (normalizeNorm raw) hraw hrf
    · exact List.mem_of_mem_filter (resolve_replacedFrom_some hrf).2.2.2
    · exact (List.mem_filter.mp (resolve_replacedFrom_some hrf).2.2.2).2
    · exact resolve_norm_minimal hrf
  · decide

/-- **C2** witness: the general upgrade statement at the concrete input
of the spec's example. -/
theorem c2_canonical_upgrade_witness :
    ∃ up,
      (normalizeNorm "§ 823 BGB".toList, up) ∈
        (sanitizeAnswerCitations "Возможна ссылка на § 823 BGB.".toList
          ["§ 823 Abs. 1 BGB".toList]).replacedNorms ∧
      up ∈ ["§ 823 Abs. 1 BGB".toList] ∧
      headTailMatches (normalizeNorm "§ 823 BGB".toList) up = true ∧
      ∀ x ∈ ["§ 823 Abs. 1 BGB".toList],
        headTailMatches (normalizeNorm "§ 823 BGB".toList) x = true →
          up.length ≤ x.length :=
  c2_canonical_upgrade.1 "Возможна ссылка на § 823 BGB.".toList
    ["§ 823 Abs. 1 BGB".toList] "§ 823 BGB".toList (by decide) (by decide)
    ⟨"§ 823 Abs. 1 BGB".toList, by decide, by decide⟩

/-- **C3**.  A citation that neither canonicalizes into the allowlist
nor matches any allowed norm on leading pair and trailing law code is
recorded (canonicalized) in `removedNorms`, and its text is replaced by
the fixed neutral placeholder; in particular `"§ 999 BGB"` against
`{"§ 823 Abs. 1 BGB"}` becomes the placeholder with
`removedNorms = ["§ 999 BGB"]`. -/
theorem c3_unverifiable_removed :
    (∀ (text : List Char) (allowed : List (List Char)) (raw : List Char),
      raw ∈ jsMatchAll text →
      normalizeNorm raw ∉ allowed →
      allowed.filter (fun y => headTailMatches (normalizeNorm raw) y) = [] →
      normalizeNorm raw ∈ (sanitizeAnswerCitations text allowed).removedNorms) ∧
    sanitizeAnswerCitations "§ 999 BGB".toList ["§ 823 Abs. 1 BGB".toList] =
      ⟨citationPlaceholder, ["§ 999 BGB".toList], []⟩ := by
  constructor
  · intro text allowed raw hraw hmem hfil
    have hok : (resolveToAllowedNorm raw allowed).ok = false := by
      simp only [resolveToAllowedNorm, if_neg hmem, if_pos hfil]
    have hfound : jsMatchAll text ≠ [] := by
      intro hnil
      rw [hnil] at hraw
      exact absurd hraw (List.not_mem_nil raw)
    have e : sanitizeAnswerCitations text allowed =
        sanitizeGo allowed text [] [] (jsMatchAll text) := by
      simp [sanitizeAnswerCitations, hfound]
    rw [e]
    exact sanitizeGo_removed_spec allowed (jsMatchAll text) text [] [] raw hraw hok
  · decide

/-- **C3** witness: the general removal statement at the concrete input
of the repository's own guard test. -/
theorem c3_unverifiable_removed_witness :
    normalizeNorm "§ 999 BGB".toList ∈
      (sanitizeAnswerCitations "Также применим § 999 BGB.".toList
        ["§ 823 Abs. 1 BGB".toList]).removedNorms :=
  c3_unverifiable_removed.1 "Также применим § 999 BGB.".toList
    ["§ 823 Abs. 1 BGB".toList] "§ 999 BGB".toList (by decide) (by decide) (by decide)

/-- **C4**.  If every citation found in the draft canonicalizes into the
allowlist, the sanitizer returns the text unchanged with empty
`removedNorms` and `replacedNorms`; in particular for the allowlist
`{"§ 823 Abs. 1 BGB"}` and a draft containing exactly that citation. -/
theorem c4_allowed_untouched :
    (∀ (text : List Char) (allowed : List (List Char)),
      (∀ raw ∈ jsMatchAll text, normalizeNorm raw ∈ allowed) →
      sanitizeAnswerCitations text allowed = ⟨text, [], []⟩) ∧
    sanitizeAnswerCitations "§ 823 Abs. 1 BGB".toList ["§ 823 Abs. 1 BGB".toList] =
      ⟨"§ 823 Abs. 1 BGB".toList, [], []⟩ := by
  constructor
  · intro text allowed hall
    by_cases h : jsMatchAll text = []
    · simp [sanitizeAnswerCitations, h]
    · have e : sanitizeAnswerCitations text allowed =
          sanitizeGo allowed text [] [] (jsMatchAll text) := by
        simp [sanitizeAnswerCitations, h]
      rw [e]
      exact sanitizeGo_id_of_allowed allowed (jsMatchAll text) text [] [] hall
  · decide

/-- **C4** witness: the general no-false-removal statement at the
concrete input of the repository's own guard test (the allowed citation
inside a sentence). -/
theorem c4_allowed_untouched_witness :
    sanitizeAnswerCitations "Применима § 823 Abs. 1 BGB.".toList
        ["§ 823 Abs. 1 BGB".toList] =
      ⟨"Применима § 823 Abs. 1 BGB.".toList, [], []⟩ :=
  c4_allowed_untouched.1 "Применима § 823 Abs. 1 BGB.".toList
    ["§ 823 Abs. 1 BGB".toList] (by decide)

/-- **C10** (implicit frame property).  A draft with no norm-shaped
substring is returned verbatim, with empty removed and replaced lists:
the sanitizer never modifies text outside citation matches. -/
theorem c10_no_citation_no_change :
    ∀ (text : List Char) (allowed : List (List Char)),
      jsMatchAll text = [] →
      sanitizeAnswerCitations text allowed = ⟨text, [], []⟩ := by
  intro text allowed h
  simp [sanitizeAnswerCitations, h]

/-- **C10** witness: a concrete citation-free draft is unchanged. -/
theorem c10_no_citation_no_change_witness :
    sanitizeAnswerCitations "Hallo Welt, das ist ein Text ohne Normen.".toList
        ["§ 823 Abs. 1 BGB".toList] =
      ⟨"Hallo Welt, das ist ein Text ohne Normen.".toList, [], []⟩ :=
  c10_no_citation_no_change "Hallo Welt, das ist ein Text ohne Normen.".toList
    ["§ 823 Abs. 1 BGB".toList] (by decide)

/-! ## Claim theorems: chunker -/

theorem jsTrim_len_le (s : List Char) : (jsTrim s).length ≤ s.length := by
  unfold jsTrim
  have h1 := (List.dropWhile_sublist (l := s) (p := jsWs)).length_le
  have h2 := (List.dropWhile_sublist (l := (s.dropWhile jsWs).reverse) (p := jsWs)).length_le
  simp only [List.length_reverse] at h2 ⊢
  omega

theorem lastSpaceIdxLe_go_le (l : List Char) :
    ∀ k i, lastSpaceIdxLe.go l k = some i → i ≤ k := by
  intro k
  induction k with
  | zero =>
    intro i h
    simp only [lastSpaceIdxLe.go] at h
    by_cases hc : l.get? 0 = some ' '
    · rw [if_pos hc] at h
      exact Nat.le_of_eq (Option.some_inj.mp h).symm
    · rw [if_neg hc] at h
      exact absurd h (by simp)
  | succ k ih =>
    intro i h
    simp only [lastSpaceIdxLe.go] at h
    by_cases hc : l.get? (k + 1) = some ' '
    · rw [if_pos hc] at h
      exact Nat.le_of_eq (Option.some_inj.mp h).symm
    · rw [if_neg hc] at h
      exact Nat.le_trans (ih i h) (Nat.le_succ k)

theorem lastSpaceIdxLe_le {l : List Char} {pos i : Nat}
    (h : lastSpaceIdxLe l pos = some i) : i ≤ pos := by
  unfold lastSpaceIdxLe at h
  have := lastSpaceIdxLe_go_le l (min pos (l.length - 1)) i h
  omega

theorem splitCut_le (rest : List Char) (maxChars : Nat) :
    splitCut rest maxChars ≤ maxChars := by
  unfold splitCut
  cases hls : lastSpaceIdxLe rest maxChars with
  | none =>
    have hcond : (-1 : Int) < ((6 * maxChars / 10 : Nat) : Int) := by omega
    simp only [hcond, if_pos]
    exact Nat.le_refl _
  | some i =>
    by_cases hc : ((i : Int)) < ((6 * maxChars / 10 : Nat) : Int)
    · simp only [hc, if_pos]
      exact Nat.le_refl _
    · simp only [hc, if_neg, Int.toNat_ofNat]
      exact lastSpaceIdxLe_le hls

theorem splitCut_cases (rest : List Char) (maxChars : Nat) :
    (∃ i, lastSpaceIdxLe rest maxChars = some i ∧
        6 * maxChars / 10 ≤ i ∧ splitCut rest maxChars = i) ∨
    (splitCut rest maxChars = maxChars ∧
      ∀ i, lastSpaceIdxLe rest maxChars = some i → i < 6 * maxChars / 10) := by
  unfold splitCut
  cases hls : lastSpaceIdxLe rest maxChars with
  | none =>
    refine Or.inr ⟨?_, ?_⟩
    · have hcond : (-1 : Int) < ((6 * maxChars / 10 : Nat) : Int) := by omega
      simp only [hcond, if_pos]
    · intro i h
      exact absurd h (by simp)
  | some i =>
    by_cases hc : ((i : Int)) < ((6 * maxChars / 10 : Nat) : Int)
    · refine Or.inr ⟨?_, ?_⟩
      · simp only [hc, if_pos]
      · intro j hj
        rcases Option.some_inj.mp hj with rfl
        omega
    · refine Or.inl ⟨i, rfl, by omega, ?_⟩
      rw [if_neg hc]
      simp

theorem splitTextGo_bound (maxChars : Nat) :
    ∀ fuel rest, ∀ chunk ∈ splitTextGo maxChars fuel rest, chunk.length ≤ maxChars := by
  intro fuel
  induction fuel with
  | zero => intro rest chunk h; simp [splitTextGo] at h
  | succ f ih =>
    intro rest chunk h
    simp only [splitTextGo] at h
    by_cases hlen : rest.length ≤ maxChars
    · rw [if_pos hlen] at h
      by_cases hnil : rest = []
      · simp [hnil] at h
      · rw [if_neg hnil] at h
        rcases List.mem_singleton.mp h with rfl
        exact hlen
    · rw [if_neg hlen] at h
      rcases List.mem_cons.mp h with rfl | hmem
      · refine Nat.le_trans (jsTrim_len_le _) ?_
        refine Nat.le_trans (by simp [List.length_take]) (splitCut_le rest maxChars)
      · exact ih _ chunk hmem

/-- **C6** (amended).  Every chunk produced by `splitText` has length at
most `max_chars`; the split cuts at the last *space character* at or
before `max_chars`, and falls back to a hard cut at exactly `max_chars`
when that last space lies before `⌊0.6 · max_chars⌋` (that is, when no
space occurs in the last 40% of the window) or when no space exists at
all. -/
theorem c6_chunk_bound_and_cut_rule :
    (∀ (text : List Char) (maxChars : Nat), 1 ≤ maxChars →
      ∀ chunk ∈ splitText text maxChars, chunk.length ≤ maxChars) ∧
    (∀ (text : List Char) (maxChars : Nat), 1 ≤ maxChars →
      maxChars < (jsTrim text).length →
      ∃ cut, cut ≤ maxChars ∧
        (splitText text maxChars).head? = some (jsTrim ((jsTrim text).take cut)) ∧
        ((∃ i, lastSpaceIdxLe (jsTrim text) maxChars = some i ∧
            6 * maxChars / 10 ≤ i ∧ cut = i) ∨
         (cut = maxChars ∧
           ∀ i, lastSpaceIdxLe (jsTrim text) maxChars = some i →
             i < 6 * maxChars / 10))) := by
  constructor
  · intro text maxChars _ chunk h
    exact splitTextGo_bound maxChars _ _ chunk h
  · intro text maxChars _ hlen
    unfold splitText
    simp only [splitTextGo, if_neg (Nat.not_le_of_lt hlen)]
    exact ⟨splitCut (jsTrim text) maxChars, splitCut_le _ _, rfl,
      splitCut_cases (jsTrim text) maxChars⟩

/-- **C6** witness: the amended statement at a concrete input. -/
theorem c6_chunk_bound_and_cut_rule_witness :
    ∀ chunk ∈ splitText "ab cdefghijklmno".toList 10, chunk.length ≤ 10 :=
  c6_chunk_bound_and_cut_rule.1 "ab cdefghijklmno".toList 10 (by decide)

/-- **C6** counterexample: the claim's literal cut rule (hard cut only
when no whitespace occurs in the first 60% of the window) disagrees with
the implementation.  On `"ab cdefghijklmno"` with `max_chars = 10` the
code hard-cuts (the last space, at index 2, is below `⌊0.6·10⌋ = 6`),
producing `["ab cdefghi", "jklmno"]`, while the claimed rule cuts at the
whitespace at index 2, producing `["ab", "cdefghijkl", "mno"]`. -/
theorem c6_cut_rule_counterexample :
    splitText "ab cdefghijklmno".toList 10 ≠
      specSplitText "ab cdefghijklmno".toList 10 := by
  decide

/-! ## Claim theorems: version store -/

theorem countP_tag_le_one (tag : String) (vs : List VersionRow)
    (hnd : (vs.map (fun r => r.tag)).Nodup) :
    vs.countP (fun r => decide (r.tag = tag)) ≤ 1 := by
  induction vs with
  | nil => simp
  | cons r rs ih =>
    simp only [List.map_cons, List.nodup_cons] at hnd
    by_cases h : r.tag = tag
    · rw [List.countP_cons_of_pos _ _ (by simp [h])]
      have hzero : rs.countP (fun r => decide (r.tag = tag)) = 0 := by
        rw [List.countP_eq_zero]
        intro x hx
        simp only [decide_eq_true_eq]
        intro hxt
        exact hnd.1 (by rw [← h] at hxt; exact hxt ▸ List.mem_map_of_mem (fun r => r.tag) hx)
      omega
    · rw [List.countP_cons_of_neg _ _ (by simp [h])]
      exact ih hnd.2

theorem commitStatuses_tags (tag : String) (vs : List VersionRow) :
    (commitStatuses tag vs).map (fun r => r.tag) = vs.map (fun r => r.tag) := by
  unfold commitStatuses
  rw [List.map_map, List.map_map]
  refine List.map_congr_left ?_
  intro r _
  simp only [Function.comp_apply]
  by_cases h3 : r.status = VStatus.active <;> by_cases h2 : r.tag = tag <;>
    simp [h3, h2]

theorem commitStatuses_active_le_one (tag : String) (vs : List VersionRow)
    (hnd : (vs.map (fun r => r.tag)).Nodup) :
    (commitStatuses tag vs).countP (fun r => decide (r.status = VStatus.active)) ≤ 1 := by
  unfold commitStatuses
  rw [List.countP_map, List.countP_map]
  refine Nat.le_trans (List.countP_mono_left ?_) (countP_tag_le_one tag vs hnd)
  intro r _ hr
  simp only [Function.comp_apply, decide_eq_true_eq] at hr ⊢
  by_cases h3 : r.status = VStatus.active <;> by_cases h2 : r.tag = tag <;>
    simp [h3, h2] at hr <;> try exact h2

theorem commitStatuses_active_is_tag (tag : String) (vs : List VersionRow) :
    ∀ r ∈ commitStatuses tag vs, r.status = VStatus.active → r.tag = tag := by
  intro r hr hact
  unfold commitStatuses at hr
  rw [List.map_map] at hr
  rcases List.mem_map.mp hr with ⟨r0, _, rfl⟩
  simp only [Function.comp_apply] at hact ⊢
  by_cases h3 : r0.status = VStatus.active <;> by_cases h2 : r0.tag = tag <;>
    simp [h3, h2] at hact ⊢

theorem commitStatuses_tag_active (tag : String) (vs : List VersionRow) :
    ∀ r ∈ vs, r.tag = tag →
      (⟨tag, VStatus.active⟩ : VersionRow) ∈ commitStatuses tag vs := by
  intro r hr htag
  unfold commitStatuses
  rw [List.map_map]
  have heq : (⟨tag, VStatus.active⟩ : VersionRow) =
      ((fun r => if r.tag = tag then { r with status := VStatus.active } else r) ∘
        (fun r => if r.status = VStatus.active ∧ r.tag ≠ tag
          then { r with status := VStatus.archived } else r)) r := by
    simp only [Function.comp_apply]
    by_cases h3 : r.status = VStatus.active <;> simp [h3, htag]
  rw [heq]
  exact List.mem_map_of_mem _ hr

theorem upsertLoading_tags (tag : String) (vs : List VersionRow) :
    ((vs.any fun r => decide (r.tag = tag)) = true ∧
      (upsertLoading tag vs).map (fun r => r.tag) = vs.map (fun r => r.tag)) ∨
    ((vs.any fun r => decide (r.tag = tag)) = false ∧
      (upsertLoading tag vs).map (fun r => r.tag) = vs.map (fun r => r.tag) ++ [tag]) := by
  unfold upsertLoading
  by_cases h : (vs.any fun r => decide (r.tag = tag)) = true
  · refine Or.inl ⟨h, ?_⟩
    rw [if_pos h, List.map_map]
    refine List.map_congr_left ?_
    intro r _
    by_cases h2 : r.tag = tag <;> simp [h2]
  · refine Or.inr ⟨by simpa using h, ?_⟩
    rw [if_neg h, List.map_append]
    simp

theorem upsertLoading_nodup (tag : String) (vs : List VersionRow)
    (hnd : (vs.map (fun r => r.tag)).Nodup) :
    ((upsertLoading tag vs).map (fun r => r.tag)).Nodup := by
  rcases upsertLoading_tags tag vs with ⟨_, htags⟩ | ⟨hany, htags⟩
  · rw [htags]; exact hnd
  · rw [htags, List.nodup_append]
    refine ⟨hnd, List.nodup_singleton tag, ?_⟩
    intro x hx
    simp only [List.mem_singleton]
    intro hxe
    subst hxe
    rcases List.mem_map.mp hx with ⟨r, hrmem, hrt⟩
    simp only [List.any_eq_false, decide_eq_true_eq] at hany
    exact hany r hrmem hrt

theorem upsertLoading_active_le (tag : String) (vs : List VersionRow)
    (hle : vs.countP (fun r => decide (r.status = VStatus.active)) ≤ 1) :
    (upsertLoading tag vs).countP (fun r => decide (r.status = VStatus.active)) ≤ 1 := by
  unfold upsertLoading
  by_cases h : (vs.any fun r => decide (r.tag = tag)) = true
  · rw [if_pos h, List.countP_map]
    refine Nat.le_trans (List.countP_mono_left ?_) hle
    intro r _ hrp
    simp only [Function.comp_apply, decide_eq_true_eq] at hrp ⊢
    by_cases h2 : r.tag = tag <;> (simp [h2] at hrp; try exact hrp)
  · rw [if_neg h, List.countP_append]
    have hone : List.countP (fun r => decide (r.status = VStatus.active))
        [(⟨tag, VStatus.loading⟩ : VersionRow)] = 0 := by
      simp
    omega

theorem markFailedRows_tags (tag : String) (vs : List VersionRow) :
    (markFailedRows tag vs).map (fun r => r.tag) = vs.map (fun r => r.tag) := by
  unfold markFailedRows
  rw [List.map_map]
  refine List.map_congr_left ?_
  intro r _
  by_cases h2 : r.tag = tag <;> simp [h2]

theorem markFailedRows_active_le (tag : String) (vs : List VersionRow)
    (hle : vs.countP (fun r => decide (r.status = VStatus.active)) ≤ 1) :
    (markFailedRows tag vs).countP (fun r => decide (r.status = VStatus.active)) ≤ 1 := by
  unfold markFailedRows
  rw [List.countP_map]
  refine Nat.le_trans (List.countP_mono_left ?_) hle
  intro r _ hrp
  simp only [Function.comp_apply, decide_eq_true_eq] at hrp ⊢
  by_cases h2 : r.tag = tag <;> (simp [h2] at hrp; try exact hrp)

theorem dbInvariant_of_reach :
    ∀ s, ReachDb s →
      (s.versions.map (fun r => r.tag)).Nodup ∧
      s.versions.countP (fun r => decide (r.status = VStatus.active)) ≤ 1 := by
  intro s hreach
  induction hreach with
  | init => simp [initDb]
  | step hr hstep ih =>
    rename_i t u
    cases hstep with
    | beginStep tag =>
      exact ⟨upsertLoading_nodup tag t.versions ih.1,
        upsertLoading_active_le tag t.versions ih.2⟩
    | commitStep tag =>
      refine ⟨?_, ?_⟩
      · simpa [commitVersion, commitStatuses_tags] using ih.1
      · simpa [commitVersion] using commitStatuses_active_le_one tag t.versions ih.1
    | failStep tag =>
      refine ⟨?_, ?_⟩
      · simpa [failVersion, markFailedRows_tags] using ih.1
      · simpa [failVersion] using markFailedRows_active_le tag t.versions ih.2
    | deleteStep tag => exact ih
    | insertStep c => exact ih

/-- **C7**.  In every state reachable by the version-store step relation
at most one version row has status `active`; and after
`commitVersion tag` on a reachable state, at most one row is `active`,
any active row carries tag `tag`, the active pointer names `tag`, and if
a row for `tag` existed (as after `beginVersion`) it is now
`⟨tag, active⟩`. -/
theorem c7_single_active_version :
    (∀ s, ReachDb s →
      s.versions.countP (fun r => decide (r.status = VStatus.active)) ≤ 1) ∧
    (∀ s tag, ReachDb s →
      (commitVersion tag s).versions.countP
          (fun r => decide (r.status = VStatus.active)) ≤ 1 ∧
      (∀ r ∈ (commitVersion tag s).versions, r.status = VStatus.active → r.tag = tag) ∧
      (commitVersion tag s).activeMeta = some tag ∧
      (∀ r ∈ s.versions, r.tag = tag →
        (⟨tag, VStatus.active⟩ : VersionRow) ∈ (commitVersion tag s).versions)) := by
  constructor
  · intro s hs
    exact (dbInvariant_of_reach s hs).2
  · intro s tag hs
    refine ⟨?_, ?_, rfl, ?_⟩
    · simpa [commitVersion] using
        commitStatuses_active_le_one tag s.versions (dbInvariant_of_reach s hs).1
    · simpa [commitVersion] using commitStatuses_active_is_tag tag s.versions
    · simpa [commitVersion] using commitStatuses_tag_active tag s.versions

/-- **C7** witness: a concrete ingestion history — begin and commit
`"2026-02-01"`, then begin `"2026-03-01"` — followed by
`commitVersion "2026-03-01"`. -/
theorem c7_single_active_version_witness :
    (commitVersion "2026-03-01"
        (beginVersion "2026-03-01" (commitVersion "2026-02-01"
          (beginVersion "2026-02-01" initDb)))).versions.countP
        (fun r => decide (r.status = VStatus.active)) ≤ 1 ∧
    (∀ r ∈ (commitVersion "2026-03-01"
        (beginVersion "2026-03-01" (commitVersion "2026-02-01"
          (beginVersion "2026-02-01" initDb)))).versions,
      r.status = VStatus.active → r.tag = "2026-03-01") ∧
    (commitVersion "2026-03-01"
        (beginVersion "2026-03-01" (commitVersion "2026-02-01"
          (beginVersion "2026-02-01" initDb)))).activeMeta = some "2026-03-01" ∧
    (∀ r ∈ (beginVersion "2026-03-01" (commitVersion "2026-02-01"
        (beginVersion "2026-02-01" initDb))).versions,
      r.tag = "2026-03-01" →
        (⟨"2026-03-01", VStatus.active⟩ : VersionRow) ∈
          (commitVersion "2026-03-01"
            (beginVersion "2026-03-01" (commitVersion "2026-02-01"
              (beginVersion "2026-02-01" initDb)))).versions) :=
  c7_single_active_version.2
    (beginVersion "2026-03-01" (commitVersion "2026-02-01"
      (beginVersion "2026-02-01" initDb))) "2026-03-01"
    (ReachDb.step
      (ReachDb.step
        (ReachDb.step ReachDb.init (VStep.beginStep "2026-02-01" initDb))
        (VStep.commitStep "2026-02-01" _))
      (VStep.beginStep "2026-03-01" _))

/-- **C8** (amended).  A failed ingestion run for `tag` rolls back every
write of the run and then marks `tag` failed outside the transaction:
chunks and the active pointer are exactly the pre-run ones, rows of other
tags are untouched, and a row for `tag` is marked `failed` only if it
already existed before the run — for a fresh tag the rollback erases the
`loading` row, so no row for `tag` remains at all. -/
theorem c8_failed_run_leaves_old_state :
    ∀ (s : DbState) (tag : String),
      (ingestRunFailed tag s).chunks = s.chunks ∧
      (ingestRunFailed tag s).activeMeta = s.activeMeta ∧
      (∀ r ∈ s.versions, r.tag ≠ tag → r ∈ (ingestRunFailed tag s).versions) ∧
      (∀ r ∈ (ingestRunFailed tag s).versions, r.tag ≠ tag → r ∈ s.versions) ∧
      (∀ r ∈ s.versions, r.tag = tag →
        (⟨tag, VStatus.failed⟩ : VersionRow) ∈ (ingestRunFailed tag s).versions) := by
  intro s tag
  refine ⟨rfl, rfl, ?_, ?_, ?_⟩
  · intro r hr htag
    have : r = if r.tag = tag then { r with status := VStatus.failed } else r := by
      simp [htag]
    rw [this]
    exact List.mem_map_of_mem _ hr
  · intro r hr htag
    simp only [ingestRunFailed, failVersion, markFailedRows] at hr
    rcases List.mem_map.mp hr with ⟨r0, hr0, rfl⟩
    by_cases h : r0.tag = tag
    · simp [h] at htag
    · simpa [h] using hr0
  · intro r hr htag
    have : (⟨tag, VStatus.failed⟩ : VersionRow) =
        if r.tag = tag then { r with status := VStatus.failed } else r := by
      simp [htag]
    rw [this]
    exact List.mem_map_of_mem _ hr

/-- **C8** witness: the amended statement at a concrete pre-run state
(old version `"2026-02-01"` active and serving). -/
theorem c8_failed_run_leaves_old_state_witness :
    (ingestRunFailed "2026-03-01"
        ⟨[⟨"2026-02-01", VStatus.active⟩], [⟨"2026-02-01", "BGB", "x"⟩],
          some "2026-02-01"⟩).chunks = [⟨"2026-02-01", "BGB", "x"⟩] ∧
    (⟨"2026-02-01", VStatus.active⟩ : VersionRow) ∈
      (ingestRunFailed "2026-03-01"
        ⟨[⟨"2026-02-01", VStatus.active⟩], [⟨"2026-02-01", "BGB", "x"⟩],
          some "2026-02-01"⟩).versions :=
  ⟨(c8_failed_run_leaves_old_state
      ⟨[⟨"2026-02-01", VStatus.active⟩], [⟨"2026-02-01", "BGB", "x"⟩],
        some "2026-02-01"⟩ "2026-03-01").1,
   (c8_failed_run_leaves_old_state
      ⟨[⟨"2026-02-01", VStatus.active⟩], [⟨"2026-02-01", "BGB", "x"⟩],
        some "2026-02-01"⟩ "2026-03-01").2.2.1
     ⟨"2026-02-01", VStatus.active⟩ (by decide) (by decide)⟩

/-- **C8** counterexample: the claim as stated is false for a fresh tag.
When the run for `"2026-03-01"` fails, its `loading` row was created
inside the rolled-back transaction, so `markVersionFailed` updates zero
rows and no row for `"2026-03-01"` exists afterwards — in particular no
row `⟨"2026-03-01", failed⟩`, contradicting “T's version row is marked
'failed'”. -/
theorem c8_fresh_tag_not_marked_failed :
    (⟨"2026-03-01", VStatus.failed⟩ : VersionRow) ∉
      (ingestRunFailed "2026-03-01"
        ⟨[⟨"2026-02-01", VStatus.active⟩], [⟨"2026-02-01", "BGB", "x"⟩],
          some "2026-02-01"⟩).versions ∧
    ∀ r ∈ (ingestRunFailed "2026-03-01"
        ⟨[⟨"2026-02-01", VStatus.active⟩], [⟨"2026-02-01", "BGB", "x"⟩],
          some "2026-02-01"⟩).versions, r.tag ≠ "2026-03-01" := by
  decide

/-! ## Claim theorems: query-time version resolution -/

theorem mem_insertByScore {score : LawChunk → Nat} {c x : LawChunk} {l : List LawChunk} :
    x ∈ insertByScore score c l ↔ x = c ∨ x ∈ l := by
  induction l with
  | nil => simp [insertByScore]
  | cons d ds ih =>
    by_cases h : score d ≤ score c
    · simp only [insertByScore, if_pos h, List.mem_cons, ih]
      tauto
    · simp only [insertByScore, if_neg h, List.mem_cons]

theorem mem_sortByScore {score : LawChunk → Nat} {x : LawChunk} {l : List LawChunk} :
    x ∈ sortByScore score l ↔ x ∈ l := by
  induction l with
  | nil => simp [sortByScore]
  | cons c cs ih => simp only [sortByScore, mem_insertByScore, ih, List.mem_cons]

theorem length_insertByScore (score : LawChunk → Nat) (c : LawChunk) (l : List LawChunk) :
    (insertByScore score c l).length = l.length + 1 := by
  induction l with
  | nil => simp [insertByScore]
  | cons d ds ih =>
    by_cases h : score d ≤ score c <;> simp [insertByScore, h, ih]

theorem length_sortByScore (score : LawChunk → Nat) (l : List LawChunk) :
    (sortByScore score l).length = l.length := by
  induction l with
  | nil => simp [sortByScore]
  | cons c cs ih => simp [sortByScore, length_insertByScore, ih]

theorem take_ne_nil_of_ne_nil {l : List LawChunk} {n : Nat}
    (hl : l ≠ []) (hn : 1 ≤ n) : l.take n ≠ [] := by
  cases l with
  | nil => exact absurd rfl hl
  | cons c cs =>
    cases n with
    | zero => omega
    | succ m => simp

theorem maxChunkTag_aux :
    ∀ (l : List LawChunk) (v : String),
      ∃ w, l.foldl
          (fun acc c =>
            match acc with
            | none => some c.versionTag
            | some m => some (if m < c.versionTag then c.versionTag else m))
          (some v) = some w ∧
        (w = v ∨ ∃ c ∈ l, w = c.versionTag) ∧ v ≤ w ∧ ∀ c ∈ l, c.versionTag ≤ w := by
  intro l
  induction l with
  | nil => exact fun v => ⟨v, rfl, Or.inl rfl, le_refl v, by simp⟩
  | cons c cs ih =>
    intro v
    rcases ih (if v < c.versionTag then c.versionTag else v) with ⟨w, hw, hor, hle, hall⟩
    refine ⟨w, hw, ?_, ?_, ?_⟩
    · rcases hor with hw' | ⟨d, hd, rfl⟩
      · by_cases hv : v < c.versionTag
        · rw [if_pos hv] at hw'
          exact Or.inr ⟨c, List.mem_cons_self c cs, hw'⟩
        · rw [if_neg hv] at hw'
          exact Or.inl hw'
      · exact Or.inr ⟨d, List.mem_cons_of_mem c hd, rfl⟩
    · refine le_trans ?_ hle
      by_cases hv : v < c.versionTag
      · rw [if_pos hv]
        exact le_of_lt hv
      · rw [if_neg hv]
    · intro d hd
      rcases List.mem_cons.mp hd with rfl | hd'
      · refine le_trans ?_ hle
        by_cases hv : v < d.versionTag
        · rw [if_pos hv]
        · rw [if_neg hv]
          exact le_of_not_lt hv
      · exact hall d hd'

theorem maxChunkTag_mem {chunks : List LawChunk} (h : chunks ≠ []) :
    ∃ m, maxChunkTag chunks = some m ∧
      (∃ c ∈ chunks, c.versionTag = m) ∧ ∀ c ∈ chunks, c.versionTag ≤ m := by
  cases chunks with
  | nil => exact absurd rfl h
  | cons c cs =>
    unfold maxChunkTag
    rcases maxChunkTag_aux cs c.versionTag with ⟨w, hw, hor, hle, hall⟩
    refine ⟨w, ?_, ?_, ?_⟩
    · simpa using hw
    · rcases hor with rfl | ⟨d, hd, rfl⟩
      · exact ⟨c, List.mem_cons_self c cs, rfl⟩
      · exact ⟨d, List.mem_cons_of_mem c hd, rfl⟩
    · intro d hd
      rcases List.mem_cons.mp hd with rfl | hd'
      · exact hle
      · exact hall d hd'

theorem retrieveLegalSources_eq (score : LawChunk → Nat) (s : DbState)
    (lawCodes : List String) (limit : Nat) :
    retrieveLegalSources score s lawCodes limit =
      (sortByScore score (s.chunks.filter (fun c =>
        (match effectiveVersionTag s.activeMeta s.chunks with
         | none => true
         | some t => decide (c.versionTag = t)) &&
        (lawCodes.isEmpty || lawCodes.contains c.law)))).take limit := rfl

/-- **C9**.  With no law-code filter and a positive limit:
queries resolve against the version named by the active pointer whenever
that version has at least one chunk (and then return at least one
result, all from that version); when the pointer is unset or names a
version with zero chunks, retrieval falls back to the maximal
`version_tag` among stored chunks (the most recent by tag ordering) and
still returns at least one result from a non-empty corpus. -/
theorem c9_retrieval_version_fallback :
    ∀ (score : LawChunk → Nat) (s : DbState) (limit : Nat), 1 ≤ limit →
      (∀ t, s.activeMeta = some t →
        (s.chunks.any fun c => decide (c.versionTag = t)) = true →
          retrieveLegalSources score s [] limit ≠ [] ∧
          ∀ c ∈ retrieveLegalSources score s [] limit, c.versionTag = t) ∧
      ((match s.activeMeta with
        | none => True
        | some t => (s.chunks.any fun c => decide (c.versionTag = t)) = false) →
        s.chunks ≠ [] →
          retrieveLegalSources score s [] limit ≠ [] ∧
          (∀ c ∈ retrieveLegalSources score s [] limit,
            some c.versionTag = maxChunkTag s.chunks) ∧
          (∀ c ∈ s.chunks, ∀ d ∈ retrieveLegalSources score s [] limit,
            c.versionTag ≤ d.versionTag)) := by
  intro score s limit hlim
  constructor
  · intro t hmeta hany
    have heff : effectiveVersionTag s.activeMeta s.chunks = some t := by
      simp [effectiveVersionTag, hmeta, hany]
    have hgoal : retrieveLegalSources score s [] limit =
        (sortByScore score (s.chunks.filter fun c => decide (c.versionTag = t))).take limit := by
      rw [retrieveLegalSources_eq]
      simp only [heff, List.isEmpty_nil, Bool.true_or, Bool.and_true]
    rcases List.any_eq_true.mp hany with ⟨c, hc, hct⟩
    simp only [decide_eq_true_eq] at hct
    have hmemf : c ∈ s.chunks.filter fun c => decide (c.versionTag = t) :=
      List.mem_filter.mpr ⟨hc, by simp [hct]⟩
    have hne : (s.chunks.filter fun c => decide (c.versionTag = t)) ≠ [] := by
      intro hnil
      rw [hnil] at hmemf
      exact absurd hmemf (List.not_mem_nil c)
    constructor
    · rw [hgoal]
      refine take_ne_nil_of_ne_nil ?_ hlim
      intro hnil
      have hzero : (sortByScore score
          (s.chunks.filter fun c => decide (c.versionTag = t))).length = 0 := by
        rw [hnil]
        rfl
      rw [length_sortByScore] at hzero
      exact hne (List.length_eq_zero.mp hzero)
    · intro d hd
      rw [hgoal] at hd
      have := mem_sortByScore.mp (List.take_subset _ _ hd)
      exact of_decide_eq_true (List.mem_filter.mp this).2
  · intro hstale hne
    have heff : effectiveVersionTag s.activeMeta s.chunks = maxChunkTag s.chunks := by
      cases hmeta : s.activeMeta with
      | none => simp [effectiveVersionTag]
      | some t =>
        rw [hmeta] at hstale
        simp [effectiveVersionTag, hstale]
    rcases maxChunkTag_mem hne with ⟨m, hm, ⟨c0, hc0, hc0t⟩, hmax⟩
    have hgoal : retrieveLegalSources score s [] limit =
        (sortByScore score (s.chunks.filter fun c => decide (c.versionTag = m))).take limit := by
      rw [retrieveLegalSources_eq]
      rw [heff] at *
      simp only [hm, List.isEmpty_nil, Bool.true_or, Bool.and_true]
    have hmemf : c0 ∈ s.chunks.filter fun c => decide (c.versionTag = m) :=
      List.mem_filter.mpr ⟨hc0, by simp [hc0t]⟩
    have hfilne : (s.chunks.filter fun c => decide (c.versionTag = m)) ≠ [] := by
      intro hnil
      rw [hnil] at hmemf
      exact absurd hmemf (List.not_mem_nil c0)
    refine ⟨?_, ?_, ?_⟩
    · rw [hgoal]
      refine take_ne_nil_of_ne_nil ?_ hlim
      intro hnil
      have hzero : (sortByScore score
          (s.chunks.filter fun c => decide (c.versionTag = m))).length = 0 := by
        rw [hnil]
        rfl
      rw [length_sortByScore] at hzero
      exact hfilne (List.length_eq_zero.mp hzero)
    · intro c hc
      rw [hgoal] at hc
      have := mem_sortByScore.mp (List.take_subset _ _ hc)
      rw [hm]
      exact congrArg some (of_decide_eq_true (List.mem_filter.mp this).2)
    · intro c hc d hd
      rw [hgoal] at hd
      have := mem_sortByScore.mp (List.take_subset _ _ hd)
      have hdt : d.versionTag = m := of_decide_eq_true (List.mem_filter.mp this).2
      rw [hdt]
      exact hmax c hc

/-- **C9** witness: with the pointer staleley naming `"2026-03-01"` while
all chunks belong to `"2026-02-01"`, retrieval still returns a non-empty
result resolved against the most recent stored tag. -/
theorem c9_retrieval_version_fallback_witness :
    retrieveLegalSources (fun _ => 0)
        ⟨[], [⟨"2026-02-01", "BGB", "x"⟩], some "2026-03-01"⟩ [] 5 ≠ [] ∧
    (∀ c ∈ retrieveLegalSources (fun _ => 0)
        ⟨[], [⟨"2026-02-01", "BGB", "x"⟩], some "2026-03-01"⟩ [] 5,
      some c.versionTag =
        maxChunkTag [⟨"2026-02-01", "BGB", "x"⟩]) ∧
    (∀ c ∈ ([⟨"2026-02-01", "BGB", "x"⟩] : List LawChunk),
      ∀ d ∈ retrieveLegalSources (fun _ => 0)
          ⟨[], [⟨"2026-02-01", "BGB", "x"⟩], some "2026-03-01"⟩ [] 5,
        c.versionTag ≤ d.versionTag) :=
  (c9_retrieval_version_fallback (fun _ => 0)
      ⟨[], [⟨"2026-02-01", "BGB", "x"⟩], some "2026-03-01"⟩ 5 (by decide)).2
    (by decide) (by decide)

/-! ## C5: basic lemmas for the idempotence proof -/

theorem prefix_append_cases {w a b : List Char} (h : w <+: a ++ b) :
    w <+: a ∨ ∃ w2, w = a ++ w2 ∧ w2 <+: b := by
  by_cases hlen : w.length ≤ a.length
  · exact Or.inl (List.prefix_of_prefix_length_le h (List.prefix_append a b) hlen)
  · have haw : a <+: w :=
      List.prefix_of_prefix_length_le (List.prefix_append a b) h (Nat.le_of_not_le hlen)
    rcases haw with ⟨w2, rfl⟩
    refine Or.inr ⟨w2, rfl, ?_⟩
    exact (List.prefix_append_right_inj a).mp h

theorem goodB_cons (t : List Char) (x : Char) (xs : List Char) :
    GoodB t (x :: xs) =
      ((if t.isPrefixOf (x :: xs) then ctxOk ((x :: xs).drop t.length) else true) &&
        GoodB t xs) := rfl

theorem goodB_suffix {t s z : List Char} (h : GoodB t s = true) (hz : z <:+ s) :
    GoodB t z = true := by
  rcases hz with ⟨pre, rfl⟩
  induction pre with
  | nil => exact h
  | cons p ps ih =>
    rw [List.cons_append, goodB_cons, Bool.and_eq_true] at h
    exact ih h.2

theorem goodB_spec {t s z : List Char} (h : GoodB t s = true) (hz : z <:+ s)
    (hp : t.isPrefixOf z = true) : ctxOk (z.drop t.length) = true := by
  have hgz : GoodB t z = true := goodB_suffix h hz
  cases z with
  | nil =>
    have : t = [] := by
      have := List.isPrefixOf_iff_prefix.mp hp
      exact List.prefix_nil.mp this
    subst this
    rfl
  | cons x xs =>
    rw [goodB_cons, Bool.and_eq_true, hp, if_pos rfl] at hgz
    exact hgz.1

theorem replTok_head? (c : Char) (cs : List Char) (s : List Char) :
    (replTok c cs s).head? = s.head? := by
  cases s with
  | nil => rfl
  | cons x xs =>
    rw [replTok_cons]
    by_cases h : (c :: cs).isPrefixOf (x :: xs)
    · rw [if_pos h]
      have hcx : c = x :=
        (List.cons_prefix_cons.mp (List.isPrefixOf_iff_prefix.mp h)).1
      simp [hcx]
    · rw [if_neg h]
      rfl

theorem dropWhile_head_false (p : Char → Bool) (l : List Char) :
    ∀ d, (l.dropWhile p).head? = some d → p d = false := by
  induction l with
  | nil => intro d h; simp at h
  | cons x xs ih =>
    intro d h
    rw [List.dropWhile_cons] at h
    by_cases hx : p x = true
    · rw [if_pos hx] at h
      exact ih d h
    · rw [if_neg hx] at h
      simp only [List.head?_cons, Option.some_inj] at h
      subst h
      simpa using hx

theorem ctxOk_cases {v : List Char} (h : ctxOk v = true) :
    v = [] ∨ ∃ rest, v = ' ' :: rest ∧
      (rest = [] ∨ ∃ d rest2, rest = d :: rest2 ∧ jsWs d = false) := by
  cases v with
  | nil => exact Or.inl rfl
  | cons ch rest =>
    simp only [ctxOk, Bool.and_eq_true, decide_eq_true_eq] at h
    rcases h with ⟨rfl, h2⟩
    refine Or.inr ⟨rest, rfl, ?_⟩
    cases rest with
    | nil => exact Or.inl rfl
    | cons d rest2 =>
      simp only [Bool.not_eq_true'] at h2
      exact Or.inr ⟨d, rest2, rfl, h2⟩

theorem replTok_of_goodB (c : Char) (cs : List Char)
    (_hws : ∀ ch ∈ c :: cs, jsWs ch = false) :
    ∀ n s, s.length ≤ n → GoodB (c :: cs) s = true →
      replTok c cs s = s ∨ ((c :: cs) <:+ s ∧ replTok c cs s = s ++ [' ']) := by
  intro n
  induction n with
  | zero =>
    intro s hlen _
    have : s = [] := List.length_eq_zero.mp (Nat.le_zero.mp hlen)
    subst this
    exact Or.inl rfl
  | succ n ih =>
    intro s hlen hgood
    cases s with
    | nil => exact Or.inl rfl
    | cons x xs =>
      rw [replTok_cons]
      by_cases hpre : (c :: cs).isPrefixOf (x :: xs)
      · rw [if_pos hpre]
        have hpfx : (c :: cs) <+: (x :: xs) := List.isPrefixOf_iff_prefix.mp hpre
        have heq : (c :: cs) ++ (x :: xs).drop (c :: cs).length = x :: xs :=
          List.prefix_iff_eq_append.mp hpfx
        have hdrop : (x :: xs).drop (c :: cs).length = xs.drop cs.length := by
          simp [List.length_cons]
        rw [hdrop] at heq
        have hctx : ctxOk ((x :: xs).drop (c :: cs).length) = true :=
          goodB_spec hgood (List.suffix_refl _) hpre
        rw [hdrop] at hctx
        rcases ctxOk_cases hctx with hw | ⟨rest, hw, hrest⟩
        · -- token at the very end
          rw [hw] at heq
          rw [hw]
          simp only [List.dropWhile_nil, replTok_nil]
          refine Or.inr ⟨?_, ?_⟩
          · rw [← heq]
            simp
          · rw [← heq]
            simp
        · rcases hrest with hrest | ⟨d, rest2, hrest, hd⟩
          · -- token followed by one space at the end
            subst hrest
            rw [hw] at heq ⊢
            have hsp : jsWs ' ' = true := by decide
            simp only [List.dropWhile_cons, hsp, if_true, List.dropWhile_nil, replTok_nil]
            exact Or.inl heq
          · -- token, one space, then a non-space character
            subst hrest
            rw [hw] at heq ⊢
            have hsp : jsWs ' ' = true := by decide
            simp only [List.dropWhile_cons, hsp, if_true, hd, if_false, Bool.false_eq_true]
            have hsub : (d :: rest2) <:+ (x :: xs) := by
              refine ⟨(c :: cs) ++ [' '], ?_⟩
              rw [← heq]
              simp
            have hglen : (d :: rest2).length ≤ n := by
              have h1 : (x :: xs).length ≤ n + 1 := hlen
              have h2 : (x :: xs).length = (c :: cs).length + (' ' :: d :: rest2).length := by
                rw [← heq]
                exact List.length_append _ _
              simp only [List.length_cons] at h1 h2 ⊢
              omega
            rcases ih (d :: rest2) hglen (goodB_suffix hgood hsub) with hrec | ⟨hsuf, hrec⟩
            · rw [hrec]
              exact Or.inl heq
            · rw [hrec]
              refine Or.inr ⟨hsuf.trans hsub, ?_⟩
              rw [← heq]
              simp
      · rw [if_neg hpre]
        have htail : GoodB (c :: cs) xs = true := by
          rw [goodB_cons, Bool.and_eq_true] at hgood
          exact hgood.2
        have hxlen : xs.length ≤ n := by
          simp only [List.length_cons] at hlen
          omega
        rcases ih xs hxlen htail with hrec | ⟨hsuf, hrec⟩
        · rw [hrec]
          exact Or.inl rfl
        · rw [hrec]
          exact Or.inr ⟨hsuf.trans (List.suffix_cons x xs), by simp⟩

theorem goodB_append_space (c : Char) (cs : List Char)
    (hws : ∀ ch ∈ c :: cs, jsWs ch = false) :
    ∀ s, GoodB (c :: cs) s = true →
      (∀ lc, s.getLast? = some lc → jsWs lc = false) →
      GoodB (c :: cs) (s ++ [' ']) = true := by
  intro s
  induction s with
  | nil =>
    intro _ _
    have hns : ¬ (c :: cs).isPrefixOf [' '] = true := by
      intro hp
      have hpp := List.isPrefixOf_iff_prefix.mp hp
      rcases List.cons_prefix_cons.mp hpp with ⟨hc, _⟩
      have hcws := hws c (List.mem_cons_self c cs)
      rw [hc] at hcws
      have hspt : jsWs ' ' = true := by decide
      rw [hspt] at hcws
      exact Bool.true_eq_false.mp hcws
    show GoodB (c :: cs) [' '] = true
    rw [goodB_cons, Bool.and_eq_true, if_neg hns]
    exact ⟨rfl, rfl⟩
  | cons x xs ih =>
    intro hgood hlast
    rw [goodB_cons, Bool.and_eq_true] at hgood
    have htail : GoodB (c :: cs) (xs ++ [' ']) = true := by
      refine ih hgood.2 ?_
      intro lc hlc
      refine hlast lc ?_
      cases xs with
      | nil => simp at hlc
      | cons y ys => simpa using hlc
    rw [List.cons_append, goodB_cons, Bool.and_eq_true]
    refine ⟨?_, htail⟩
    by_cases hpre : (c :: cs).isPrefixOf (x :: (xs ++ [' ']))
    · rw [if_pos hpre]
      have hpfx : (c :: cs) <+: (x :: xs) ++ [' '] := by
        rw [List.cons_append]
        exact List.isPrefixOf_iff_prefix.mp hpre
      have hpfx2 : (c :: cs) <+: (x :: xs) := by
        rcases prefix_append_cases hpfx with h | ⟨w2, hw2, hw2p⟩
        · exact h
        · rcases List.prefix_cons_iff.mp hw2p with rfl | h'
          · simp [hw2]
          · exfalso
            rcases h' with ⟨t2, ht2, _⟩
            have hmem : ' ' ∈ (c :: cs) := by
              rw [hw2, ht2]
              simp
            have hcws := hws ' ' hmem
            have hspt : jsWs ' ' = true := by decide
            rw [hspt] at hcws
            exact Bool.true_eq_false.mp hcws
      have hpreSmall : (c :: cs).isPrefixOf (x :: xs) = true :=
        List.isPrefixOf_iff_prefix.mpr hpfx2
      have hctx : ctxOk ((x :: xs).drop (c :: cs).length) = true := by
        rw [if_pos hpreSmall] at hgood
        exact hgood.1
      have heq : (c :: cs) ++ (x :: xs).drop (c :: cs).length = x :: xs :=
        List.prefix_iff_eq_append.mp hpfx2
      have hdropbig : (x :: (xs ++ [' '])).drop (c :: cs).length =
          (x :: xs).drop (c :: cs).length ++ [' '] := by
        have hle : (c :: cs).length ≤ (x :: xs).length := hpfx2.length_le
        rw [← List.cons_append, List.drop_append_eq_append_drop]
        have hz : (c :: cs).length - (x :: xs).length = 0 := by omega
        rw [hz]
        rfl
      rw [hdropbig]
      rcases ctxOk_cases hctx with hv | ⟨rest, hv, hrest⟩
      · rw [hv]
        rfl
      · rcases hrest with rfl | ⟨d, rest2, rfl, hd⟩
        · exfalso
          rw [hv] at heq
          have hlx : (x :: xs).getLast? = some ' ' := by
            rw [← heq]
            exact List.getLast?_concat (c :: cs)
          have hcws := hlast ' ' hlx
          have hspt : jsWs ' ' = true := by decide
          rw [hspt] at hcws
          exact Bool.true_eq_false.mp hcws
        · rw [hv]
          simp [ctxOk, hd]
    · rw [if_neg hpre]

theorem goodB_of_append_space (c : Char) (cs : List Char) :
    ∀ s, GoodB (c :: cs) (s ++ [' ']) = true → GoodB (c :: cs) s = true := by
  intro s
  induction s with
  | nil => intro _; rfl
  | cons x xs ih =>
    intro hbig
    rw [List.cons_append, goodB_cons, Bool.and_eq_true] at hbig
    rw [goodB_cons, Bool.and_eq_true]
    refine ⟨?_, ih hbig.2⟩
    by_cases hpre : (c :: cs).isPrefixOf (x :: xs)
    · rw [if_pos hpre]
      have hpfx : (c :: cs) <+: (x :: xs) := List.isPrefixOf_iff_prefix.mp hpre
      have hpreBig : (c :: cs).isPrefixOf (x :: (xs ++ [' '])) = true := by
        refine List.isPrefixOf_iff_prefix.mpr ?_
        rw [← List.cons_append]
        exact hpfx.trans ⟨[' '], rfl⟩
      have hctxBig : ctxOk ((x :: (xs ++ [' '])).drop (c :: cs).length) = true := by
        have h1 := hbig.1
        rw [hpreBig] at h1
        simpa using h1
      have hdropbig : (x :: (xs ++ [' '])).drop (c :: cs).length =
          (x :: xs).drop (c :: cs).length ++ [' '] := by
        have hle : (c :: cs).length ≤ (x :: xs).length := hpfx.length_le
        rw [← List.cons_append, List.drop_append_eq_append_drop]
        have hz : (c :: cs).length - (x :: xs).length = 0 := by omega
        rw [hz]
        rfl
      rw [hdropbig] at hctxBig
      rcases hveq : (x :: xs).drop (c :: cs).length with _ | ⟨ch, rest⟩
      · rfl
      · rw [hveq] at hctxBig
        simp only [List.cons_append, ctxOk, Bool.and_eq_true, decide_eq_true_eq] at hctxBig
        rcases hctxBig with ⟨rfl, h2⟩
        cases rest with
        | nil =>
          exfalso
          simp only [List.nil_append] at h2
          have hspt : jsWs ' ' = true := by decide
          rw [hspt] at h2
          simp at h2
        | cons d rest2 =>
          simp only [List.cons_append] at h2
          simp [ctxOk, h2]
    · rw [if_neg hpre]

theorem prefix_transfer (c : Char) (cs : List Char) :
    ∀ n (w s : List Char), s.length ≤ n →
      (∀ ch ∈ w, jsWs ch = false) → ¬ ((c :: cs) <:+ w) →
      w <+: replTok c cs s → w <+: s := by
  intro n
  induction n with
  | zero =>
    intro w s hlen _ _ hp
    have : s = [] := List.length_eq_zero.mp (Nat.le_zero.mp hlen)
    subst this
    rw [replTok_nil] at hp
    exact hp
  | succ n ih =>
    intro w s hlen hwws hnsuf hp
    cases s with
    | nil =>
      rw [replTok_nil] at hp
      exact hp
    | cons x xs =>
      rw [replTok_cons] at hp
      by_cases hpre : (c :: cs).isPrefixOf (x :: xs)
      · rw [if_pos hpre] at hp
        rcases prefix_append_cases hp with h | ⟨w2, rfl, hw2⟩
        · exact h.trans (List.isPrefixOf_iff_prefix.mp hpre)
        · rcases List.prefix_cons_iff.mp hw2 with rfl | ⟨t2, rfl, _⟩
          · exact absurd (by simp) hnsuf
          · exfalso
            have hmem : ' ' ∈ (c :: cs) ++ ' ' :: t2 := by simp
            have := hwws ' ' hmem
            have hspt : jsWs ' ' = true := by decide
            rw [hspt] at this
            exact Bool.true_eq_false.mp this
      · rw [if_neg hpre] at hp
        rcases List.prefix_cons_iff.mp hp with rfl | ⟨w2, rfl, hw2⟩
        · exact List.nil_prefix
        · have hw2s : w2 <+: xs := by
            refine ih w2 xs ?_ ?_ ?_ hw2
            · simp only [List.length_cons] at hlen
              omega
            · intro ch hch
              exact hwws ch (List.mem_cons_of_mem x hch)
            · intro hsuf
              exact hnsuf (hsuf.trans (List.suffix_cons x w2))
          exact List.cons_prefix_cons.mpr ⟨rfl, hw2s⟩

theorem ctx_transfer (c : Char) (cs : List Char)
    (huws : ∀ ch ∈ c :: cs, jsWs ch = false) :
    ∀ n (w xs : List Char), xs.length ≤ n →
      (∀ ch ∈ w, jsWs ch = false) → ¬ ((c :: cs) <:+ w) →
      w <+: xs → w <+: replTok c cs xs →
      ctxOk (xs.drop w.length) = true →
      ctxOk ((replTok c cs xs).drop w.length) = true := by
  intro n
  induction n with
  | zero =>
    intro w xs hlen _ _ _ _ _
    have : xs = [] := List.length_eq_zero.mp (Nat.le_zero.mp hlen)
    subst this
    simpa
  | succ n ih =>
    intro w xs hlen hwws hnsuf hwxs hwR hctx
    cases xs with
    | nil =>
      have : w = [] := List.prefix_nil.mp hwxs
      subst this
      simpa
    | cons x xs2 =>
      rw [replTok_cons] at hwR ⊢
      by_cases hpre : (c :: cs).isPrefixOf (x :: xs2)
      · rw [if_pos hpre] at hwR ⊢
        have hu : (c :: cs) <+: (x :: xs2) := List.isPrefixOf_iff_prefix.mp hpre
        have heq : (c :: cs) ++ (x :: xs2).drop (c :: cs).length = x :: xs2 :=
          List.prefix_iff_eq_append.mp hu
        -- w is a prefix of (c :: cs) ++ rest; three cases on its length
        rcases prefix_append_cases hwR with hwu | ⟨w2, rfl, hw2⟩
        · -- w a prefix of the token u
          by_cases heqw : w = (c :: cs)
          · exact absurd (heqw ▸ List.suffix_refl (c :: cs)) hnsuf
          · -- w a proper prefix of u: the source context starts with a
            -- non-space character of u, contradicting hctx
            exfalso
            have hvne : (c :: cs).drop w.length ≠ [] := by
              intro hnil
              have hlenle := hwu.length_le
              have : (c :: cs).length ≤ w.length := by
                have := congrArg List.length hnil
                simp only [List.length_drop, List.length_nil] at this
                omega
              exact heqw (List.IsPrefix.eq_of_length_le hwu this)
            have hdropeq : (x :: xs2).drop w.length =
                (c :: cs).drop w.length ++ (x :: xs2).drop (c :: cs).length := by
              conv_lhs => rw [← heq]
              rw [List.drop_append_eq_append_drop]
              have hz : w.length - (c :: cs).length = 0 := by
                have := hwu.length_le
                omega
              rw [hz]
              have hdz : ((x :: xs2).drop (c :: cs).length).drop 0 =
                  (x :: xs2).drop (c :: cs).length := rfl
              rw [hdz]
            rw [hdropeq] at hctx
            rcases hveq : (c :: cs).drop w.length with _ | ⟨vh, vt⟩
            · exact hvne hveq
            · rw [hveq] at hctx
              simp only [List.cons_append, ctxOk, Bool.and_eq_true, decide_eq_true_eq] at hctx
              have hvhmem : vh ∈ (c :: cs) := by
                have : vh ∈ (c :: cs).drop w.length := by
                  rw [hveq]; exact List.mem_cons_self vh vt
                exact List.mem_of_mem_drop this
              have := huws vh hvhmem
              rw [hctx.1] at this
              have hspt : jsWs ' ' = true := by decide
              rw [hspt] at this
              exact Bool.true_eq_false.mp this
        · -- w = u ++ w2 : w2 must begin with the inserted space, which is
          -- whitespace inside w — impossible (or w2 = [], i.e. w = u,
          -- excluded by hnsuf)
          rcases List.prefix_cons_iff.mp hw2 with rfl | ⟨t2, rfl, _⟩
          · exact absurd (by simp) hnsuf
          · exfalso
            have hmem : ' ' ∈ (c :: cs) ++ ' ' :: t2 := by simp
            have hcws := hwws ' ' hmem
            have hspt : jsWs ' ' = true := by decide
            rw [hspt] at hcws
            exact Bool.true_eq_false.mp hcws
      · rw [if_neg hpre] at hwR ⊢
        rcases List.prefix_cons_iff.mp hwxs with rfl | ⟨w2, rfl, hw2⟩
        · -- w = []: the head of the output agrees with the head of the input
          simp only [List.length_nil, List.drop_zero] at hctx ⊢
          cases hR2 : replTok c cs xs2 with
          | nil =>
            simp only [ctxOk, Bool.and_eq_true, decide_eq_true_eq] at hctx ⊢
            exact ⟨hctx.1, trivial⟩
          | cons d ds =>
            have hh : (replTok c cs xs2).head? = xs2.head? := replTok_head? c cs xs2
            rw [hR2] at hh
            cases xs2 with
            | nil => simp at hh
            | cons y ys =>
              simp only [List.head?_cons, Option.some_inj] at hh
              subst hh
              simp only [ctxOk, Bool.and_eq_true, decide_eq_true_eq] at hctx ⊢
              exact ⟨hctx.1, hctx.2⟩
        · have hw2R : w2 <+: replTok c cs xs2 := (List.cons_prefix_cons.mp hwR).2
          have hlen2 : xs2.length ≤ n := by
            simp only [List.length_cons] at hlen
            omega
          have hctx2 : ctxOk (xs2.drop w2.length) = true := by
            simpa only [List.length_cons, List.drop_succ_cons] using hctx
          have hres := ih w2 xs2 hlen2
            (fun ch hch => hwws ch (List.mem_cons_of_mem x hch))
            (fun hsuf => hnsuf (hsuf.trans (List.suffix_cons x w2))) hw2 hw2R hctx2
          simpa only [List.length_cons, List.drop_succ_cons] using hres

theorem goodB_build (c : Char) (cs : List Char)
    (hws : ∀ ch ∈ c :: cs, jsWs ch = false) :
    ∀ (a R : List Char), GoodB (c :: cs) R = true →
      (∀ v, v <:+ a → v ≠ [] → (c :: cs).isPrefixOf (v ++ ' ' :: R) = true →
        ctxOk ((v ++ ' ' :: R).drop (c :: cs).length) = true) →
      GoodB (c :: cs) (a ++ ' ' :: R) = true := by
  intro a
  induction a with
  | nil =>
    intro R hR _
    rw [List.nil_append, goodB_cons, Bool.and_eq_true]
    refine ⟨?_, hR⟩
    have hns : ¬ (c :: cs).isPrefixOf (' ' :: R) = true := by
      intro hp
      rcases List.cons_prefix_cons.mp (List.isPrefixOf_iff_prefix.mp hp) with ⟨hc, _⟩
      have hcws := hws c (List.mem_cons_self c cs)
      rw [hc] at hcws
      have hspt : jsWs ' ' = true := by decide
      rw [hspt] at hcws
      exact Bool.true_eq_false.mp hcws
    rw [if_neg hns]
  | cons x a2 ih =>
    intro R hR hocc
    rw [List.cons_append, goodB_cons, Bool.and_eq_true]
    refine ⟨?_, ?_⟩
    · by_cases hpre : (c :: cs).isPrefixOf (x :: (a2 ++ ' ' :: R))
      · rw [if_pos hpre]
        have hfull := hocc (x :: a2) (List.suffix_refl _) (by simp) (by
          rw [List.cons_append]
          exact hpre)
        rw [List.cons_append] at hfull
        exact hfull
      · rw [if_neg hpre]
    · refine ih R hR ?_
      intro v hv hvne hvp
      exact hocc v (hv.trans (List.suffix_cons x a2)) hvne hvp

theorem goodB_replTok_self (c : Char) (cs : List Char)
    (hws : ∀ ch ∈ c :: cs, jsWs ch = false) :
    ∀ n s, s.length ≤ n → GoodB (c :: cs) (replTok c cs s) = true := by
  intro n
  induction n with
  | zero =>
    intro s hlen
    have : s = [] := List.length_eq_zero.mp (Nat.le_zero.mp hlen)
    subst this
    rfl
  | succ n ih =>
    intro s hlen
    cases s with
    | nil => rfl
    | cons x xs =>
      rw [replTok_cons]
      by_cases hpre : (c :: cs).isPrefixOf (x :: xs)
      · rw [if_pos hpre]
        have hylen : (List.dropWhile jsWs (List.drop cs.length xs)).length ≤ n := by
          have h1 := (List.dropWhile_sublist jsWs (l := List.drop cs.length xs)).length_le
          have h2 : (List.drop cs.length xs).length ≤ xs.length :=
            (List.drop_suffix cs.length xs).length_le
          simp only [List.length_cons] at hlen
          omega
        have hR : GoodB (c :: cs)
            (replTok c cs (List.dropWhile jsWs (List.drop cs.length xs))) = true :=
          ih _ hylen
        refine goodB_build c cs hws (c :: cs) _ hR ?_
        intro v hv hvne hvp
        rcases prefix_append_cases (List.isPrefixOf_iff_prefix.mp hvp) with huv | ⟨w2, hw2, hw2p⟩
        · have hveq : (c :: cs) = v :=
            List.IsPrefix.eq_of_length_le huv hv.length_le
          rw [← hveq, List.drop_left]
          rcases hRc : replTok c cs (List.dropWhile jsWs (List.drop cs.length xs)) with
            _ | ⟨d, ds⟩
          · rfl
          · have hh := replTok_head? c cs (List.dropWhile jsWs (List.drop cs.length xs))
            rw [hRc] at hh
            have hd : jsWs d = false :=
              dropWhile_head_false jsWs (List.drop cs.length xs) d hh.symm
            simp [ctxOk, hd]
        · rcases List.prefix_cons_iff.mp hw2p with rfl | ⟨t2, rfl, _⟩
          · rw [List.append_nil] at hw2
            rw [hw2, List.drop_left]
            rcases hRc : replTok c cs (List.dropWhile jsWs (List.drop cs.length xs)) with
              _ | ⟨d, ds⟩
            · rfl
            · have hh := replTok_head? c cs (List.dropWhile jsWs (List.drop cs.length xs))
              rw [hRc] at hh
              have hd : jsWs d = false :=
                dropWhile_head_false jsWs (List.drop cs.length xs) d hh.symm
              simp [ctxOk, hd]
          · exfalso
            have hmem : ' ' ∈ (c :: cs) := by
              rw [hw2]
              simp
            have hcws := hws ' ' hmem
            have hspt : jsWs ' ' = true := by decide
            rw [hspt] at hcws
            exact Bool.true_eq_false.mp hcws
      · rw [if_neg hpre]
        have hxlen : xs.length ≤ n := by
          simp only [List.length_cons] at hlen
          omega
        have htail : GoodB (c :: cs) (replTok c cs xs) = true := ih xs hxlen
        rw [goodB_cons, Bool.and_eq_true]
        refine ⟨?_, htail⟩
        have hns : ¬ (c :: cs).isPrefixOf (x :: replTok c cs xs) = true := by
          intro hp
          rcases List.cons_prefix_cons.mp (List.isPrefixOf_iff_prefix.mp hp) with ⟨hc, hcsp⟩
          have hcsxs : cs <+: xs := by
            refine prefix_transfer c cs xs.length cs xs le_rfl ?_ ?_ hcsp
            · intro ch hch
              exact hws ch (List.mem_cons_of_mem c hch)
            · intro hsuf
              have := hsuf.length_le
              simp only [List.length_cons] at this
              omega
          exact hpre (List.isPrefixOf_iff_prefix.mpr
            (by rw [hc]; exact List.cons_prefix_cons.mpr ⟨rfl, hcsxs⟩))
        rw [if_neg hns]

theorem goodB_cross (c : Char) (cs : List Char) (b : Char) (bs : List Char)
    (huws : ∀ ch ∈ c :: cs, jsWs ch = false)
    (htws : ∀ ch ∈ b :: bs, jsWs ch = false)
    (htu : ¬ (c :: cs) <:+ (b :: bs))
    (hut : ¬ (b :: bs) <:+ (c :: cs)) :
    ∀ n s, s.length ≤ n → GoodB (b :: bs) s = true →
      GoodB (b :: bs) (replTok c cs s) = true := by
  intro n
  induction n with
  | zero =>
    intro s hlen _
    have : s = [] := List.length_eq_zero.mp (Nat.le_zero.mp hlen)
    subst this
    rfl
  | succ n ih =>
    intro s hlen hgood
    cases s with
    | nil => rfl
    | cons x xs =>
      rw [replTok_cons]
      by_cases hpre : (c :: cs).isPrefixOf (x :: xs)
      · rw [if_pos hpre]
        have hylen : (List.dropWhile jsWs (List.drop cs.length xs)).length ≤ n := by
          have h1 := (List.dropWhile_sublist jsWs (l := List.drop cs.length xs)).length_le
          have h2 : (List.drop cs.length xs).length ≤ xs.length :=
            (List.drop_suffix cs.length xs).length_le
          simp only [List.length_cons] at hlen
          omega
        have hysuf : List.dropWhile jsWs (List.drop cs.length xs) <:+ (x :: xs) :=
          ((List.dropWhile_suffix jsWs).trans (List.drop_suffix cs.length xs)).trans
            (List.suffix_cons x xs)
        have hR : GoodB (b :: bs)
            (replTok c cs (List.dropWhile jsWs (List.drop cs.length xs))) = true :=
          ih _ hylen (goodB_suffix hgood hysuf)
        refine goodB_build b bs htws (c :: cs) _ hR ?_
        intro v hv hvne hvp
        exfalso
        rcases prefix_append_cases (List.isPrefixOf_iff_prefix.mp hvp) with htv | ⟨w2, hw2, hw2p⟩
        · by_cases heq : (b :: bs) = v
          · exact hut (heq ▸ hv)
          · have hupfx : (c :: cs) <+: (x :: xs) := List.isPrefixOf_iff_prefix.mp hpre
            have heqs : (c :: cs) ++ (x :: xs).drop (c :: cs).length = x :: xs :=
              List.prefix_iff_eq_append.mp hupfx
            rcases hv with ⟨p, hp⟩
            have hzsuf : (v ++ (x :: xs).drop (c :: cs).length) <:+ (x :: xs) := by
              refine ⟨p, ?_⟩
              rw [← List.append_assoc, hp, heqs]
            have htz : (b :: bs).isPrefixOf (v ++ (x :: xs).drop (c :: cs).length) = true :=
              List.isPrefixOf_iff_prefix.mpr (htv.trans (List.prefix_append v _))
            have hctxold := goodB_spec hgood hzsuf htz
            have htlev : (b :: bs).length ≤ v.length := htv.length_le
            have htltv : (b :: bs).length < v.length := by
              refine lt_of_le_of_ne htlev ?_
              intro hl
              exact heq (List.IsPrefix.eq_of_length_le htv (le_of_eq hl.symm))
            have hdropeq : (v ++ (x :: xs).drop (c :: cs).length).drop (b :: bs).length =
                (v.drop (b :: bs).length) ++ (x :: xs).drop (c :: cs).length := by
              rw [List.drop_append_eq_append_drop]
              have hz : (b :: bs).length - v.length = 0 := by omega
              rw [hz]
              rfl
            rw [hdropeq] at hctxold
            rcases hvd : v.drop (b :: bs).length with _ | ⟨ch, vt⟩
            · have := congrArg List.length hvd
              simp only [List.length_drop, List.length_nil] at this
              omega
            · rw [hvd] at hctxold
              simp only [List.cons_append, ctxOk, Bool.and_eq_true,
                decide_eq_true_eq] at hctxold
              have hchv : ch ∈ v := by
                refine List.mem_of_mem_drop (n := (b :: bs).length) (l := v) ?_
                rw [hvd]
                exact List.mem_cons_self ch vt
              have hchu : ch ∈ (c :: cs) := by
                rw [← hp]
                exact List.mem_append.mpr (Or.inr hchv)
              have hws2 := huws ch hchu
              rw [hctxold.1] at hws2
              have hspt : jsWs ' ' = true := by decide
              rw [hspt] at hws2
              exact Bool.true_eq_false.mp hws2
        · rcases List.prefix_cons_iff.mp hw2p with rfl | ⟨t2, rfl, _⟩
          · rw [List.append_nil] at hw2
            exact hut (hw2 ▸ hv)
          · have hmem : ' ' ∈ (b :: bs) := by
              rw [hw2]
              simp
            have hws2 := htws ' ' hmem
            have hspt : jsWs ' ' = true := by decide
            rw [hspt] at hws2
            exact Bool.true_eq_false.mp hws2
      · rw [if_neg hpre]
        have hxlen : xs.length ≤ n := by
          simp only [List.length_cons] at hlen
          omega
        have htail : GoodB (b :: bs) (replTok c cs xs) = true := by
          refine ih xs hxlen ?_
          rw [goodB_cons, Bool.and_eq_true] at hgood
          exact hgood.2
        rw [goodB_cons, Bool.and_eq_true]
        refine ⟨?_, htail⟩
        by_cases ht : (b :: bs).isPrefixOf (x :: replTok c cs xs)
        · rw [if_pos ht]
          have hrepl : replTok c cs (x :: xs) = x :: replTok c cs xs := by
            rw [replTok_cons, if_neg hpre]
          have htR : (b :: bs) <+: replTok c cs (x :: xs) := by
            rw [hrepl]
            exact List.isPrefixOf_iff_prefix.mp ht
          have htS : (b :: bs) <+: (x :: xs) :=
            prefix_transfer c cs (x :: xs).length (b :: bs) (x :: xs) le_rfl htws htu htR
          have hctxold : ctxOk ((x :: xs).drop (b :: bs).length) = true :=
            goodB_spec hgood (List.suffix_refl _) (List.isPrefixOf_iff_prefix.mpr htS)
          have hctxnew := ctx_transfer c cs huws (x :: xs).length (b :: bs) (x :: xs)
            le_rfl htws htu htS htR hctxold
          rw [hrepl] at hctxnew
          exact hctxnew
        · rw [if_neg ht]

theorem chain_of_all_nonws (l : List Char) (h : ∀ ch ∈ l, jsWs ch = false) :
    List.Chain' (fun a b => jsWs a = false ∨ jsWs b = false) l := by
  induction l with
  | nil => exact List.chain'_nil
  | cons x xs ih =>
    rw [List.chain'_cons']
    refine ⟨fun b _ => Or.inl (h x (List.mem_cons_self x xs)), ?_⟩
    exact ih (fun ch hch => h ch (List.mem_cons_of_mem x hch))

theorem noDoubleWs_suffix {s z : List Char} (h : noDoubleWs s) (hz : z <:+ s) :
    noDoubleWs z :=
  ⟨fun ch hch => h.1 ch (hz.sublist.subset hch), h.2.suffix hz⟩

theorem noDoubleWs_tail {x : Char} {xs : List Char} (h : noDoubleWs (x :: xs)) :
    noDoubleWs xs :=
  ⟨fun ch hch => h.1 ch (List.mem_cons_of_mem x hch), h.2.tail⟩

theorem head_nonws_collapseWs (z : List Char)
    (hz : ∀ d, z.head? = some d → jsWs d = false) :
    ∀ d, (collapseWs z).head? = some d → jsWs d = false := by
  cases z with
  | nil =>
    intro d h
    rw [collapseWs_nil] at h
    simp at h
  | cons y ys =>
    have hy : jsWs y = false := hz y rfl
    rw [collapseWs_cons, if_neg (by simp [hy])]
    intro d h
    simp only [List.head?_cons, Option.some_inj] at h
    subst h
    exact hy

theorem noDoubleWs_collapseWs : ∀ n (s : List Char), s.length ≤ n →
    noDoubleWs (collapseWs s) := by
  intro n
  induction n with
  | zero =>
    intro s hlen
    have : s = [] := List.length_eq_zero.mp (Nat.le_zero.mp hlen)
    subst this
    rw [collapseWs_nil]
    exact ⟨by simp, List.chain'_nil⟩
  | succ n ih =>
    intro s hlen
    cases s with
    | nil =>
      rw [collapseWs_nil]
      exact ⟨by simp, List.chain'_nil⟩
    | cons x xs =>
      rw [collapseWs_cons]
      by_cases hx : jsWs x
      · rw [if_pos hx]
        have hdlen : (xs.dropWhile jsWs).length ≤ n := by
          have h1 := (List.dropWhile_sublist (l := xs) (p := jsWs)).length_le
          simp only [List.length_cons] at hlen
          omega
        have hrest := ih (xs.dropWhile jsWs) hdlen
        constructor
        · intro ch hch hchws
          rcases List.mem_cons.mp hch with rfl | hch2
          · rfl
          · exact hrest.1 ch hch2 hchws
        · rw [List.chain'_cons']
          refine ⟨?_, hrest.2⟩
          intro b hb
          rw [Option.mem_def] at hb
          exact Or.inr (head_nonws_collapseWs (xs.dropWhile jsWs)
            (fun d hd => dropWhile_head_false jsWs xs d hd) b hb)
      · rw [if_neg hx]
        have hx2 : jsWs x = false := by simpa using hx
        have hxs := ih xs (by simp only [List.length_cons] at hlen; omega)
        constructor
        · intro ch hch hchws
          rcases List.mem_cons.mp hch with rfl | hch2
          · rw [hx2] at hchws
            exact absurd hchws Bool.false_ne_true
          · exact hxs.1 ch hch2 hchws
        · rw [List.chain'_cons']
          exact ⟨fun b _ => Or.inl hx2, hxs.2⟩

theorem noDoubleWs_replTok (c : Char) (cs : List Char)
    (hws : ∀ ch ∈ c :: cs, jsWs ch = false) :
    ∀ n (s : List Char), s.length ≤ n → noDoubleWs s →
      noDoubleWs (replTok c cs s) := by
  intro n
  induction n with
  | zero =>
    intro s hlen hnd
    have : s = [] := List.length_eq_zero.mp (Nat.le_zero.mp hlen)
    subst this
    rw [replTok_nil]
    exact hnd
  | succ n ih =>
    intro s hlen hnd
    cases s with
    | nil =>
      rw [replTok_nil]
      exact hnd
    | cons x xs =>
      rw [replTok_cons]
      by_cases hpre : (c :: cs).isPrefixOf (x :: xs)
      · rw [if_pos hpre]
        have hylen : (List.dropWhile jsWs (List.drop cs.length xs)).length ≤ n := by
          have h1 := (List.dropWhile_sublist jsWs (l := List.drop cs.length xs)).length_le
          have h2 : (List.drop cs.length xs).length ≤ xs.length :=
            (List.drop_suffix cs.length xs).length_le
          simp only [List.length_cons] at hlen
          omega
        have hysuf : List.dropWhile jsWs (List.drop cs.length xs) <:+ (x :: xs) :=
          ((List.dropWhile_suffix jsWs).trans (List.drop_suffix cs.length xs)).trans
            (List.suffix_cons x xs)
        have hndR := ih _ hylen (noDoubleWs_suffix hnd hysuf)
        constructor
        · intro ch hch hchws
          rcases List.mem_append.mp hch with hch1 | hch2
          · rw [hws ch hch1] at hchws
            exact absurd hchws Bool.false_ne_true
          · rcases List.mem_cons.mp hch2 with rfl | hch3
            · rfl
            · exact hndR.1 ch hch3 hchws
        · rw [List.chain'_append]
          refine ⟨chain_of_all_nonws _ hws, ?_, ?_⟩
          · rw [List.chain'_cons']
            refine ⟨?_, hndR.2⟩
            intro b hb
            rw [Option.mem_def] at hb
            have hh := replTok_head? c cs (List.dropWhile jsWs (List.drop cs.length xs))
            rw [hb] at hh
            exact Or.inr (dropWhile_head_false jsWs (List.drop cs.length xs) b hh.symm)
          · intro a ha b hb
            rw [Option.mem_def] at ha
            exact Or.inl (hws a (List.mem_of_mem_getLast? ha))
      · rw [if_neg hpre]
        have hndtail := ih xs (by simp only [List.length_cons] at hlen; omega)
          (noDoubleWs_tail hnd)
        constructor
        · intro ch hch hchws
          rcases List.mem_cons.mp hch with rfl | hch2
          · exact hnd.1 ch (List.mem_cons_self ch xs) hchws
          · exact hndtail.1 ch hch2 hchws
        · rw [List.chain'_cons']
          refine ⟨?_, hndtail.2⟩
          intro b hb
          rw [Option.mem_def] at hb
          have hh := replTok_head? c cs xs
          rw [hb] at hh
          have hrel := (List.chain'_cons'.mp hnd.2).1
          exact hrel b (by rw [Option.mem_def]; exact hh.symm)

theorem noDoubleWs_jsTrim (s : List Char) (h : noDoubleWs s) :
    noDoubleWs (jsTrim s) := by
  have h1 : noDoubleWs (s.dropWhile jsWs) :=
    noDoubleWs_suffix h (List.dropWhile_suffix jsWs)
  constructor
  · intro ch hch hchws
    refine h1.1 ch ?_ hchws
    have hch2 : ch ∈ (s.dropWhile jsWs).reverse.dropWhile jsWs := by
      simpa [jsTrim] using hch
    exact List.mem_reverse.mp ((List.dropWhile_sublist jsWs).subset hch2)
  · have h2 : List.Chain' (flip fun a b => jsWs a = false ∨ jsWs b = false)
        (s.dropWhile jsWs) := h1.2.imp (fun _ _ hab => hab.symm)
    have h3 := List.chain'_reverse.mpr h2
    have h4 := h3.suffix (List.dropWhile_suffix jsWs)
    have h5 : List.Chain' (flip fun a b => jsWs a = false ∨ jsWs b = false)
        ((s.dropWhile jsWs).reverse.dropWhile jsWs) := h4.imp (fun _ _ hab => hab.symm)
    exact List.chain'_reverse.mpr h5

theorem collapseWs_of_noDoubleWs : ∀ n (s : List Char), s.length ≤ n →
    noDoubleWs s → collapseWs s = s := by
  intro n
  induction n with
  | zero =>
    intro s hlen _
    have : s = [] := List.length_eq_zero.mp (Nat.le_zero.mp hlen)
    subst this
    exact collapseWs_nil
  | succ n ih =>
    intro s hlen hnd
    cases s with
    | nil => exact collapseWs_nil
    | cons x xs =>
      rw [collapseWs_cons]
      have hxlen : xs.length ≤ n := by
        simp only [List.length_cons] at hlen
        omega
      by_cases hx : jsWs x
      · rw [if_pos hx]
        have hxsp : x = ' ' := hnd.1 x (List.mem_cons_self x xs) hx
        have hdw : xs.dropWhile jsWs = xs := by
          cases xs with
          | nil => rfl
          | cons y ys =>
            have hrel := (List.chain'_cons'.mp hnd.2).1 y rfl
            rcases hrel with h1 | h2
            · rw [hx] at h1
              exact absurd h1.symm Bool.false_ne_true
            · rw [List.dropWhile_cons, if_neg (by simp [h2])]
        rw [hdw, ih xs hxlen (noDoubleWs_tail hnd), hxsp]
      · rw [if_neg hx]
        rw [ih xs hxlen (noDoubleWs_tail hnd)]

theorem jsTrim_head_nonws (s : List Char) :
    ∀ d, (jsTrim s).head? = some d → jsWs d = false := by
  intro d h
  have hpref : jsTrim s <+: s.dropWhile jsWs := by
    have h1 : ((s.dropWhile jsWs).reverse.dropWhile jsWs).reverse <+:
        (s.dropWhile jsWs).reverse.reverse :=
      List.reverse_prefix.mpr (List.dropWhile_suffix jsWs)
    rw [List.reverse_reverse] at h1
    exact h1
  obtain ⟨t, ht⟩ : ∃ t, jsTrim s = d :: t := by
    cases hj : jsTrim s with
    | nil =>
      rw [hj] at h
      exact absurd h (by simp)
    | cons e t =>
      rw [hj] at h
      simp only [List.head?_cons, Option.some_inj] at h
      exact ⟨t, by rw [h]⟩
  rw [ht] at hpref
  rcases hpref with ⟨r, hr⟩
  have hhd : (s.dropWhile jsWs).head? = some d := by
    rw [← hr]
    rfl
  exact dropWhile_head_false jsWs s d hhd

theorem jsTrim_getLast_nonws (s : List Char) :
    ∀ d, (jsTrim s).getLast? = some d → jsWs d = false := by
  intro d h
  have h2 : ((s.dropWhile jsWs).reverse.dropWhile jsWs).reverse.getLast? = some d := h
  rw [List.getLast?_reverse] at h2
  exact dropWhile_head_false jsWs (s.dropWhile jsWs).reverse d h2

theorem jsTrim_cases (s : List Char) (hnd : noDoubleWs s) :
    jsTrim s = s.dropWhile jsWs ∨ s.dropWhile jsWs = jsTrim s ++ [' '] := by
  have hnd1 : noDoubleWs (s.dropWhile jsWs) :=
    noDoubleWs_suffix hnd (List.dropWhile_suffix jsWs)
  cases hrev : (s.dropWhile jsWs).reverse with
  | nil =>
    left
    have hnil : s.dropWhile jsWs = [] := by
      have := congrArg List.reverse hrev
      rwa [List.reverse_reverse] at this
    show ((s.dropWhile jsWs).reverse.dropWhile jsWs).reverse = s.dropWhile jsWs
    rw [hrev, hnil]
    rfl
  | cons a r2 =>
    by_cases ha : jsWs a
    · right
      have hamem : a ∈ s.dropWhile jsWs := by
        rw [← List.mem_reverse, hrev]
        exact List.mem_cons_self a r2
      have hasp : a = ' ' := hnd1.1 a hamem ha
      have hchainrev : List.Chain' (fun u v => jsWs u = false ∨ jsWs v = false)
          (s.dropWhile jsWs).reverse :=
        List.chain'_reverse.mpr (hnd1.2.imp (fun _ _ hab => hab.symm))
      rw [hrev] at hchainrev
      have hd : (a :: r2).dropWhile jsWs = r2 := by
        rw [List.dropWhile_cons, if_pos ha]
        cases r2 with
        | nil => rfl
        | cons b r3 =>
          have hrel := (List.chain'_cons'.mp hchainrev).1 b rfl
          rcases hrel with h1 | h2
          · rw [ha] at h1
            exact absurd h1.symm Bool.false_ne_true
          · rw [List.dropWhile_cons, if_neg (by simp [h2])]
      show s.dropWhile jsWs = ((s.dropWhile jsWs).reverse.dropWhile jsWs).reverse ++ [' ']
      rw [hrev, hd]
      have hback : s.dropWhile jsWs = (a :: r2).reverse := by
        rw [← hrev, List.reverse_reverse]
      rw [hback, List.reverse_cons, hasp]
    · left
      show ((s.dropWhile jsWs).reverse.dropWhile jsWs).reverse = s.dropWhile jsWs
      rw [hrev, List.dropWhile_cons, if_neg ha, ← hrev, List.reverse_reverse]

theorem goodB_jsTrim (c : Char) (cs : List Char) (s : List Char)
    (hg : GoodB (c :: cs) s = true) (hnd : noDoubleWs s) :
    GoodB (c :: cs) (jsTrim s) = true := by
  have hg1 : GoodB (c :: cs) (s.dropWhile jsWs) = true :=
    goodB_suffix hg (List.dropWhile_suffix jsWs)
  rcases jsTrim_cases s hnd with h | h
  · rw [h]
    exact hg1
  · refine goodB_of_append_space c cs (jsTrim s) ?_
    rw [← h]
    exact hg1

theorem not_suffix_append_space (c : Char) (cs : List Char)
    (hws : ∀ ch ∈ c :: cs, jsWs ch = false) (s : List Char) :
    ¬ (c :: cs) <:+ (s ++ [' ']) := by
  intro hsuf
  have hrev : (c :: cs).reverse <+: (s ++ [' ']).reverse := List.reverse_prefix.mpr hsuf
  rw [List.reverse_append] at hrev
  cases hcr : (c :: cs).reverse with
  | nil =>
    have := congrArg List.length hcr
    simp at this
  | cons e er =>
    rw [hcr] at hrev
    have he : e = ' ' := (List.cons_prefix_cons.mp (by simpa using hrev)).1
    have hemem : e ∈ (c :: cs) := by
      rw [← List.mem_reverse, hcr]
      exact List.mem_cons_self e er
    have hews := hws e hemem
    rw [he] at hews
    have hspt : jsWs ' ' = true := by decide
    rw [hspt] at hews
    exact Bool.true_eq_false.mp hews

theorem jsTrim_eq_self (s : List Char)
    (hh : ∀ d, s.head? = some d → jsWs d = false)
    (hl : ∀ d, s.getLast? = some d → jsWs d = false) : jsTrim s = s := by
  have h1 : s.dropWhile jsWs = s := by
    cases s with
    | nil => rfl
    | cons x xs => rw [List.dropWhile_cons, if_neg (by simp [hh x rfl])]
  show ((s.dropWhile jsWs).reverse.dropWhile jsWs).reverse = s
  rw [h1]
  have h2 : s.reverse.dropWhile jsWs = s.reverse := by
    cases hr : s.reverse with
    | nil => rfl
    | cons y ys =>
      have hy : s.getLast? = some y := by
        rw [← List.head?_reverse, hr]
        rfl
      rw [List.dropWhile_cons, if_neg (by simp [hl y hy])]
  rw [h2, List.reverse_reverse]

theorem jsTrim_append_space (s : List Char)
    (hh : ∀ d, s.head? = some d → jsWs d = false)
    (hl : ∀ d, s.getLast? = some d → jsWs d = false) :
    jsTrim (s ++ [' ']) = s := by
  cases s with
  | nil => decide
  | cons x xs =>
    have hx : jsWs x = false := hh x rfl
    show ((((x :: xs) ++ [' ']).dropWhile jsWs).reverse.dropWhile jsWs).reverse = x :: xs
    have h1 : ((x :: xs) ++ [' ']).dropWhile jsWs = (x :: xs) ++ [' '] := by
      rw [List.cons_append, List.dropWhile_cons, if_neg (by simp [hx]), ← List.cons_append]
    rw [h1]
    have h2 : ((x :: xs) ++ [' ']).reverse = ' ' :: (x :: xs).reverse := by
      rw [List.reverse_append]
      rfl
    rw [h2, List.dropWhile_cons, if_pos (by decide)]
    have h3 : (x :: xs).reverse.dropWhile jsWs = (x :: xs).reverse := by
      cases hr : (x :: xs).reverse with
      | nil => rfl
      | cons y ys =>
        have hy : (x :: xs).getLast? = some y := by
          rw [← List.head?_reverse, hr]
          rfl
        rw [List.dropWhile_cons, if_neg (by simp [hl y hy])]
    rw [h3, List.reverse_reverse]

theorem replTok_step (c : Char) (cs : List Char)
    (hws : ∀ ch ∈ c :: cs, jsWs ch = false) (y z : List Char)
    (hg : GoodB (c :: cs) y = true)
    (hl : ∀ d, y.getLast? = some d → jsWs d = false)
    (hz : z = y ∨ z = y ++ [' ']) :
    replTok c cs z = y ∨ replTok c cs z = y ++ [' '] := by
  rcases hz with rfl | rfl
  · rcases replTok_of_goodB c cs hws z.length z le_rfl hg with h | ⟨_, h⟩
    · exact Or.inl h
    · exact Or.inr h
  · have hg2 : GoodB (c :: cs) (y ++ [' ']) = true :=
      goodB_append_space c cs hws y hg hl
    rcases replTok_of_goodB c cs hws (y ++ [' ']).length (y ++ [' ']) le_rfl hg2 with
      h | ⟨hsuf, _⟩
    · exact Or.inr h
    · exact absurd hsuf (not_suffix_append_space c cs hws y)

theorem normalizeNorm_facts (s : List Char) :
    noDoubleWs (normalizeNorm s) ∧
    (∀ d, (normalizeNorm s).head? = some d → jsWs d = false) ∧
    (∀ d, (normalizeNorm s).getLast? = some d → jsWs d = false) ∧
    GoodB ('§' :: []) (normalizeNorm s) = true ∧
    GoodB ('A' :: "rt.".toList) (normalizeNorm s) = true ∧
    GoodB ('A' :: "bs.".toList) (normalizeNorm s) = true ∧
    GoodB ('N' :: "r.".toList) (normalizeNorm s) = true ∧
    GoodB ('S' :: "atz".toList) (normalizeNorm s) = true ∧
    GoodB ('l' :: "it.".toList) (normalizeNorm s) = true ∧
    GoodB ('B' :: "uchst.".toList) (normalizeNorm s) = true := by
  have hw1 : ∀ ch ∈ ('§' :: ([] : List Char)), jsWs ch = false := by decide
  have hw2 : ∀ ch ∈ ('A' :: "rt.".toList), jsWs ch = false := by decide
  have hw3 : ∀ ch ∈ ('A' :: "bs.".toList), jsWs ch = false := by decide
  have hw4 : ∀ ch ∈ ('N' :: "r.".toList), jsWs ch = false := by decide
  have hw5 : ∀ ch ∈ ('S' :: "atz".toList), jsWs ch = false := by decide
  have hw6 : ∀ ch ∈ ('l' :: "it.".toList), jsWs ch = false := by decide
  have hw7 : ∀ ch ∈ ('B' :: "uchst.".toList), jsWs ch = false := by decide
  rw [normalizeNorm_eq]
  set z1 := replTok '§' [] (collapseWs s) with hz1
  set z2 := replTok 'A' "rt.".toList z1 with hz2
  set z3 := replTok 'A' "bs.".toList z2 with hz3
  set z4 := replTok 'N' "r.".toList z3 with hz4
  set z5 := replTok 'S' "atz".toList z4 with hz5
  set z6 := replTok 'l' "it.".toList z5 with hz6
  set z7 := replTok 'B' "uchst.".toList z6 with hz7
  have hnd0 : noDoubleWs (collapseWs s) := noDoubleWs_collapseWs s.length s le_rfl
  have hnd1 : noDoubleWs z1 := noDoubleWs_replTok '§' [] hw1 _ _ le_rfl hnd0
  have hnd2 : noDoubleWs z2 := noDoubleWs_replTok 'A' "rt.".toList hw2 _ _ le_rfl hnd1
  have hnd3 : noDoubleWs z3 := noDoubleWs_replTok 'A' "bs.".toList hw3 _ _ le_rfl hnd2
  have hnd4 : noDoubleWs z4 := noDoubleWs_replTok 'N' "r.".toList hw4 _ _ le_rfl hnd3
  have hnd5 : noDoubleWs z5 := noDoubleWs_replTok 'S' "atz".toList hw5 _ _ le_rfl hnd4
  have hnd6 : noDoubleWs z6 := noDoubleWs_replTok 'l' "it.".toList hw6 _ _ le_rfl hnd5
  have hnd7 : noDoubleWs z7 := noDoubleWs_replTok 'B' "uchst.".toList hw7 _ _ le_rfl hnd6
  have hg11 : GoodB ('§' :: []) z1 = true :=
    goodB_replTok_self '§' [] hw1 _ _ le_rfl
  have hg22 : GoodB ('A' :: "rt.".toList) z2 = true :=
    goodB_replTok_self 'A' "rt.".toList hw2 _ _ le_rfl
  have hg21 : GoodB ('§' :: []) z2 = true :=
    goodB_cross 'A' "rt.".toList '§' [] hw2 hw1 (by decide) (by decide) _ _ le_rfl hg11
  have hg33 : GoodB ('A' :: "bs.".toList) z3 = true :=
    goodB_replTok_self 'A' "bs.".toList hw3 _ _ le_rfl
  have hg31 : GoodB ('§' :: []) z3 = true :=
    goodB_cross 'A' "bs.".toList '§' [] hw3 hw1 (by decide) (by decide) _ _ le_rfl hg21
  have hg32 : GoodB ('A' :: "rt.".toList) z3 = true :=
    goodB_cross 'A' "bs.".toList 'A' "rt.".toList hw3 hw2 (by decide) (by decide)
      _ _ le_rfl hg22
  have hg44 : GoodB ('N' :: "r.".toList) z4 = true :=
    goodB_replTok_self 'N' "r.".toList hw4 _ _ le_rfl
  have hg41 : GoodB ('§' :: []) z4 = true :=
    goodB_cross 'N' "r.".toList '§' [] hw4 hw1 (by decide) (by decide) _ _ le_rfl hg31
  have hg42 : GoodB ('A' :: "rt.".toList) z4 = true :=
    goodB_cross 'N' "r.".toList 'A' "rt.".toList hw4 hw2 (by decide) (by decide)
      _ _ le_rfl hg32
  have hg43 : GoodB ('A' :: "bs.".toList) z4 = true :=
    goodB_cross 'N' "r.".toList 'A' "bs.".toList hw4 hw3 (by decide) (by decide)
      _ _ le_rfl hg33
  have hg55 : GoodB ('S' :: "atz".toList) z5 = true :=
    goodB_replTok_self 'S' "atz".toList hw5 _ _ le_rfl
  have hg51 : GoodB ('§' :: []) z5 = true :=
    goodB_cross 'S' "atz".toList '§' [] hw5 hw1 (by decide) (by decide) _ _ le_rfl hg41
  have hg52 : GoodB ('A' :: "rt.".toList) z5 = true :=
    goodB_cross 'S' "atz".toList 'A' "rt.".toList hw5 hw2 (by decide) (by decide)
      _ _ le_rfl hg42
  have hg53 : GoodB ('A' :: "bs.".toList) z5 = true :=
    goodB_cross 'S' "atz".toList 'A' "bs.".toList hw5 hw3 (by decide) (by decide)
      _ _ le_rfl hg43
  have hg54 : GoodB ('N' :: "r.".toList) z5 = true :=
    goodB_cross 'S' "atz".toList 'N' "r.".toList hw5 hw4 (by decide) (by decide)
      _ _ le_rfl hg44
  have hg66 : GoodB ('l' :: "it.".toList) z6 = true :=
    goodB_replTok_self 'l' "it.".toList hw6 _ _ le_rfl
  have hg61 : GoodB ('§' :: []) z6 = true :=
    goodB_cross 'l' "it.".toList '§' [] hw6 hw1 (by decide) (by decide) _ _ le_rfl hg51
  have hg62 : GoodB ('A' :: "rt.".toList) z6 = true :=
    goodB_cross 'l' "it.".toList 'A' "rt.".toList hw6 hw2 (by decide) (by decide)
      _ _ le_rfl hg52
  have hg63 : GoodB ('A' :: "bs.".toList) z6 = true :=
    goodB_cross 'l' "it.".toList 'A' "bs.".toList hw6 hw3 (by decide) (by decide)
      _ _ le_rfl hg53
  have hg64 : GoodB ('N' :: "r.".toList) z6 = true :=
    goodB_cross 'l' "it.".toList 'N' "r.".toList hw6 hw4 (by decide) (by decide)
      _ _ le_rfl hg54
  have hg65 : GoodB ('S' :: "atz".toList) z6 = true :=
    goodB_cross 'l' "it.".toList 'S' "atz".toList hw6 hw5 (by decide) (by decide)
      _ _ le_rfl hg55
  have hg77 : GoodB ('B' :: "uchst.".toList) z7 = true :=
    goodB_replTok_self 'B' "uchst.".toList hw7 _ _ le_rfl
  have hg71 : GoodB ('§' :: []) z7 = true :=
    goodB_cross 'B' "uchst.".toList '§' [] hw7 hw1 (by decide) (by decide) _ _ le_rfl hg61
  have hg72 : GoodB ('A' :: "rt.".toList) z7 = true :=
    goodB_cross 'B' "uchst.".toList 'A' "rt.".toList hw7 hw2 (by decide) (by decide)
      _ _ le_rfl hg62
  have hg73 : GoodB ('A' :: "bs.".toList) z7 = true :=
    goodB_cross 'B' "uchst.".toList 'A' "bs.".toList hw7 hw3 (by decide) (by decide)
      _ _ le_rfl hg63
  have hg74 : GoodB ('N' :: "r.".toList) z7 = true :=
    goodB_cross 'B' "uchst.".toList 'N' "r.".toList hw7 hw4 (by decide) (by decide)
      _ _ le_rfl hg64
  have hg75 : GoodB ('S' :: "atz".toList) z7 = true :=
    goodB_cross 'B' "uchst.".toList 'S' "atz".toList hw7 hw5 (by decide) (by decide)
      _ _ le_rfl hg65
  have hg76 : GoodB ('l' :: "it.".toList) z7 = true :=
    goodB_cross 'B' "uchst.".toList 'l' "it.".toList hw7 hw6 (by decide) (by decide)
      _ _ le_rfl hg66
  exact ⟨noDoubleWs_jsTrim z7 hnd7, jsTrim_head_nonws z7, jsTrim_getLast_nonws z7,
    goodB_jsTrim '§' [] z7 hg71 hnd7,
    goodB_jsTrim 'A' "rt.".toList z7 hg72 hnd7,
    goodB_jsTrim 'A' "bs.".toList z7 hg73 hnd7,
    goodB_jsTrim 'N' "r.".toList z7 hg74 hnd7,
    goodB_jsTrim 'S' "atz".toList z7 hg75 hnd7,
    goodB_jsTrim 'l' "it.".toList z7 hg76 hnd7,
    goodB_jsTrim 'B' "uchst.".toList z7 hg77 hnd7⟩

theorem normalizeNorm_fixed (y : List Char) (hnd : noDoubleWs y)
    (hh : ∀ d, y.head? = some d → jsWs d = false)
    (hl : ∀ d, y.getLast? = some d → jsWs d = false)
    (g1 : GoodB ('§' :: []) y = true)
    (g2 : GoodB ('A' :: "rt.".toList) y = true)
    (g3 : GoodB ('A' :: "bs.".toList) y = true)
    (g4 : GoodB ('N' :: "r.".toList) y = true)
    (g5 : GoodB ('S' :: "atz".toList) y = true)
    (g6 : GoodB ('l' :: "it.".toList) y = true)
    (g7 : GoodB ('B' :: "uchst.".toList) y = true) :
    normalizeNorm y = y := by
  have hw1 : ∀ ch ∈ ('§' :: ([] : List Char)), jsWs ch = false := by decide
  have hw2 : ∀ ch ∈ ('A' :: "rt.".toList), jsWs ch = false := by decide
  have hw3 : ∀ ch ∈ ('A' :: "bs.".toList), jsWs ch = false := by decide
  have hw4 : ∀ ch ∈ ('N' :: "r.".toList), jsWs ch = false := by decide
  have hw5 : ∀ ch ∈ ('S' :: "atz".toList), jsWs ch = false := by decide
  have hw6 : ∀ ch ∈ ('l' :: "it.".toList), jsWs ch = false := by decide
  have hw7 : ∀ ch ∈ ('B' :: "uchst.".toList), jsWs ch = false := by decide
  rw [normalizeNorm_eq, collapseWs_of_noDoubleWs y.length y le_rfl hnd]
  have s1 := replTok_step '§' [] hw1 y y g1 hl (Or.inl rfl)
  have s2 := replTok_step 'A' "rt.".toList hw2 y _ g2 hl s1
  have s3 := replTok_step 'A' "bs.".toList hw3 y _ g3 hl s2
  have s4 := replTok_step 'N' "r.".toList hw4 y _ g4 hl s3
  have s5 := replTok_step 'S' "atz".toList hw5 y _ g5 hl s4
  have s6 := replTok_step 'l' "it.".toList hw6 y _ g6 hl s5
  have s7 := replTok_step 'B' "uchst.".toList hw7 y _ g7 hl s6
  rcases s7 with h | h
  · rw [h]
    exact jsTrim_eq_self y hh hl
  · rw [h]
    exact jsTrim_append_space y hh hl

/-- **C5**: norm canonicalization is idempotent — for every string `x`,
`normalizeNorm (normalizeNorm x) = normalizeNorm x` (citationGuard.js
lines 6–17: collapse `\s+` to a single space, force one space after each
of the tokens `§`, `Art.`, `Abs.`, `Nr.`, `Satz`, `lit.`, `Buchst.`, then
trim). -/
theorem c5_normalize_idempotent (x : List Char) :
    normalizeNorm (normalizeNorm x) = normalizeNorm x := by
  obtain ⟨hnd, hh, hl, g1, g2, g3, g4, g5, g6, g7⟩ := normalizeNorm_facts x
  exact normalizeNorm_fixed (normalizeNorm x) hnd hh hl g1 g2 g3 g4 g5 g6 g7
